import Mathlib

/-!
Verification of the gridea square-packing solver.

This file gives a shallow embedding of the core of the repository
(`scoring.py`, `utils.py`, `gridea.py`, `network.py`, `initialize.py`)
and proves or refutes the frozen claims about it.

Modelling conventions:
* 2-D numpy byte arrays become total functions `Nat → Nat → Nat` together
  with explicit height/width bounds carried in a `Puzzle` structure; all
  code under scrutiny only ever reads and writes in-bounds cells (this is
  itself one of the verified claims), so the out-of-bounds values of the
  functions are irrelevant junk, exactly like the uninitialised scratch
  buffer in the source.
* unbounded `while` loops become fuel-indexed recursion; the fuel used in
  the definitions is provably sufficient (the growth loop of
  `expand_solution`/`score_solution` can iterate at most `height` times
  because of its `i + n < height` guard), and a fuel-congruence lemma is
  proved where two call sites use different fuel.
* `uint32` arithmetic becomes `Nat` arithmetic reduced `% 2^32` at the
  points where the machine width matters.
* the scorer additionally logs every (row, col) scratch-grid access it
  performs, so that the in-bounds claim about the unchecked unrolled
  accesses can be stated; the log over-approximates Python's
  short-circuit evaluation (it records a read even when `and` would have
  short-circuited before it), so in-boundedness of the whole log is a
  superset statement of the accesses actually performed.
-/

namespace Gridea

/-- A 2-D byte array, as a total function from (row, col) to cell value. -/
abbrev Grid : Type := Nat → Nat → Nat

/-- Single-cell store `g[i, j] = v`. -/
def upd (g : Grid) (i j v : Nat) : Grid :=
  fun a b => if a = i ∧ b = j then v else g a b

/-- A puzzle: dimensions plus the cell array (`0` wall, `1` interior). -/
structure Puzzle where
  height : Nat
  width : Nat
  cell : Grid

/-- `utils.split_point`: upper 16 bits are `i`, lower 16 bits are `j`. -/
def split_point (point : Nat) : Nat × Nat :=
  (point >>> 16, point &&& 0xffff)

/-- Packing `(i << 16) + j` as used by `get_valid_points`. -/
def pack_point (i j : Nat) : Nat :=
  (i <<< 16) + j

/-- The hit-wall scan of the growth loop in `expand_solution` /
`score_solution`: the square of side `n` at `(i, j)` can grow iff for
every `k ≤ n` both `scratch[i+n, j+k]` and `scratch[i+k, j+n]` are `1`.
(The source sets `hit_wall` by scanning with early exit; the scan has no
side effects, so it equals this bounded universal.) -/
def checkRing (g : Grid) (i j n : Nat) : Prop :=
  ∀ k, k < n + 1 → g (i + n) (j + k) = 1 ∧ g (i + k) (j + n) = 1

instance (g : Grid) (i j n : Nat) : Decidable (checkRing g i j n) :=
  Nat.decidableBallLT _ _

/-- The marking pass of the growth loop: for `k` in `0..n`,
`scratch[i+n, j+k] = 3` then `scratch[i+k, j+n] = 3`. -/
def markRing (g : Grid) (i j n : Nat) : Grid :=
  (List.range (n + 1)).foldl
    (fun h k => upd (upd h (i + n) (j + k) 3) (i + k) (j + n) 3) g

/-- The (row, col) scratch cells touched (read and, on success, written)
by one iteration of the growth loop at side `n`. -/
def ringAccs (i j n : Nat) : List (Nat × Nat) :=
  (List.range (n + 1)).flatMap (fun k => [(i + n, j + k), (i + k, j + n)])

/-- The `while not hit_wall and i + n < height and j + n < width` growth
loop shared by `expand_solution` and (for `n ≥ 4`) `score_solution`.
Returns the final grid, the final side `n`, and the access log.  `fuel`
bounds the iteration count; any `fuel` with `height ≤ n + fuel` is
sufficient (see `growFrom_fuel_congr`). -/
def growFrom (H W i j : Nat) : Nat → Grid → Nat → Grid × Nat × List (Nat × Nat)
  | 0, g, n => (g, n, [])
  | fuel + 1, g, n =>
    if i + n < H ∧ j + n < W then
      if checkRing g i j n then
        let r := growFrom H W i j fuel (markRing g i j n) (n + 1)
        (r.1, r.2.1, ringAccs i j n ++ r.2.2)
      else (g, n, ringAccs i j n)
    else (g, n, [])

/-- One point of the `for point in solution` loop of `expand_solution`:
if the cell is empty, grow a maximal square there; if it reached side
`n > 1`, mark the anchor `2` and record the box `(i, j, n)`. -/
def expandPoint (pz : Puzzle) (st : Grid × List (Nat × Nat × Nat)) (point : Nat) :
    Grid × List (Nat × Nat × Nat) :=
  let i := (split_point point).1
  let j := (split_point point).2
  if st.1 i j = 1 then
    let r := growFrom pz.height pz.width i j pz.height st.1 1
    if r.2.1 > 1 then (upd r.1 i j 2, st.2 ++ [(i, j, r.2.1)])
    else (r.1, st.2)
  else st

/-- The final `for i / for j / if scratch[i, j] == 1` sweep of
`expand_solution`, emitting a 1×1 box for every still-empty cell. -/
def sweep (pz : Puzzle) (g : Grid) : List (Nat × Nat × Nat) :=
  (List.range pz.height).flatMap
    (fun i => ((List.range pz.width).filter (fun j => g i j == 1)).map
      (fun j => (i, j, 1)))

/-- A box in challenge API format: `X` is the column, `Y` the row. -/
structure ApiBox where
  X : Nat
  Y : Nat
  Size : Nat
deriving DecidableEq, Repr

/-- `scoring.expand_solution`: draw squares in permutation order, then
emit the 1×1 boxes, and convert `(y, x, size)` triples to API boxes. -/
def expand_solution (pz : Puzzle) (solution : List Nat) : List ApiBox :=
  let r := solution.foldl (expandPoint pz) (pz.cell, [])
  (r.2 ++ sweep pz r.1).map (fun b => ⟨b.2.1, b.1, b.2.2⟩)

/-- `utils.copy_2d(puzzle, scratch)`: overwrite the in-bounds part of the
scratch grid with the puzzle cells (out-of-bounds scratch junk stays). -/
def copy_2d (pz : Puzzle) (scratch : Grid) : Grid :=
  fun a b => if a < pz.height ∧ b < pz.width then pz.cell a b else scratch a b

/-- The accesses performed by `utils.copy_2d` (every in-bounds cell). -/
def copyAccs (pz : Puzzle) : List (Nat × Nat) :=
  (List.range pz.height).flatMap
    (fun a => (List.range pz.width).map (fun b => (a, b)))

/-- Running state of `score_solution`: the scratch grid, the square count
`score`, the covered-cell count `tiles_used`, and the access log. -/
structure SState where
  g : Grid
  score : Nat
  tiles : Nat
  accs : List (Nat × Nat)

/-- One point of the `for point in solution` loop of `score_solution`:
the n=2 / n=3 / n=4 cases are unrolled exactly as in the source, the
rest of the growth runs through `growFrom` starting at `n = 4`. -/
def scorePoint (pz : Puzzle) (st : SState) (point : Nat) : SState :=
  let i := (split_point point).1
  let j := (split_point point).2
  let quadAccs : List (Nat × Nat) := [(i, j), (i, j + 1), (i + 1, j), (i + 1, j + 1)]
  if st.g i j = 1 ∧ st.g i (j + 1) = 1 ∧ st.g (i + 1) j = 1 ∧ st.g (i + 1) (j + 1) = 1 then
    let g2 := upd (upd (upd (upd st.g i j 2) i (j + 1) 3) (i + 1) j 3) (i + 1) (j + 1) 3
    let accs2 := quadAccs ++ quadAccs
    if i + 2 < pz.height ∧ j + 2 < pz.width then
      let accs3r : List (Nat × Nat) :=
        [(i, j + 2), (i + 1, j + 2), (i + 2, j), (i + 2, j + 1), (i + 2, j + 2)]
      if g2 i (j + 2) = 1 ∧ g2 (i + 1) (j + 2) = 1 ∧ g2 (i + 2) j = 1 ∧
          g2 (i + 2) (j + 1) = 1 ∧ g2 (i + 2) (j + 2) = 1 then
        let g3 := upd (upd (upd (upd (upd g2 i (j + 2) 3) (i + 1) (j + 2) 3)
          (i + 2) j 3) (i + 2) (j + 1) 3) (i + 2) (j + 2) 3
        if i + 3 < pz.height ∧ j + 3 < pz.width then
          let accs4r : List (Nat × Nat) :=
            [(i + 3, j), (i + 3, j + 1), (i + 3, j + 2), (i + 3, j + 3),
             (i, j + 3), (i + 1, j + 3), (i + 2, j + 3)]
          if g3 (i + 3) j = 1 ∧ g3 (i + 3) (j + 1) = 1 ∧ g3 (i + 3) (j + 2) = 1 ∧
              g3 (i + 3) (j + 3) = 1 ∧ g3 i (j + 3) = 1 ∧ g3 (i + 1) (j + 3) = 1 ∧
              g3 (i + 2) (j + 3) = 1 then
            let g4 := upd (upd (upd (upd (upd (upd (upd g3 i (j + 3) 3)
              (i + 1) (j + 3) 3) (i + 2) (j + 3) 3) (i + 3) j 3)
              (i + 3) (j + 1) 3) (i + 3) (j + 2) 3) (i + 3) (j + 3) 3
            let r := growFrom pz.height pz.width i j pz.height g4 4
            { g := r.1, score := st.score + 1, tiles := st.tiles + r.2.1 * r.2.1,
              accs := st.accs ++ accs2 ++ accs3r ++ accs3r ++ accs4r ++ accs4r ++ r.2.2 }
          else
            { g := g3, score := st.score + 1, tiles := st.tiles + 9,
              accs := st.accs ++ accs2 ++ accs3r ++ accs3r }
        else
          { g := g3, score := st.score + 1, tiles := st.tiles + 9,
            accs := st.accs ++ accs2 ++ accs3r ++ accs3r }
      else
        { g := g2, score := st.score + 1, tiles := st.tiles + 4,
          accs := st.accs ++ accs2 ++ accs3r }
    else
      { g := g2, score := st.score + 1, tiles := st.tiles + 4,
        accs := st.accs ++ accs2 }
  else
    { st with accs := st.accs ++ quadAccs }

/-- The full run of `score_solution`: copy the puzzle over the scratch
grid and fold the per-point step over the permutation. -/
def scoreRun (pz : Puzzle) (scratch : Grid) (solution : List Nat) : SState :=
  solution.foldl (scorePoint pz)
    { g := copy_2d pz scratch, score := 0, tiles := 0, accs := copyAccs pz }

/-- `scoring.score_solution`: the returned count
`score + puzzle_sum - tiles_used` (Python int arithmetic, hence `Int`). -/
def score_solution (pz : Puzzle) (puzzle_sum : Nat) (scratch : Grid)
    (solution : List Nat) : Int :=
  let st := scoreRun pz scratch solution
  (st.score : Int) + (puzzle_sum : Int) - (st.tiles : Int)

/-- `scoring.get_valid_points`: the packed points whose 2×2 south-east
block sums to 4, in row-major order. -/
def get_valid_points (pz : Puzzle) : List Nat :=
  (List.range (pz.height - 1)).flatMap (fun i =>
    ((List.range (pz.width - 1)).filter (fun j =>
      pz.cell i j + pz.cell i (j + 1) + pz.cell (i + 1) j + pz.cell (i + 1) (j + 1) == 4)).map
      (fun j => pack_point i j))

/-- Number of `1` cells of a grid inside the `H × W` bounds (the
`puzzle.sum()` that the worker passes as `puzzle_sum`). -/
def onesCount (H W : Nat) (g : Grid) : Nat :=
  ((List.range H).map (fun i => ((List.range W).filter (fun j => g i j == 1)).length)).sum

/-! ## utils.py: PRNG and population helpers -/

/-- Four-word xorshift128 PRNG state (`numpy.uint32` values). -/
structure RState where
  s0 : Nat
  s1 : Nat
  s2 : Nat
  s3 : Nat
deriving DecidableEq, Repr

/-- `utils.xorshift`: one step of xorshift128 in wrapping unsigned 32-bit
arithmetic; returns the new `s3` and the rotated state. -/
def xorshift (s : RState) : Nat × RState :=
  let t := (s.s0 % 2 ^ 32) ^^^ ((s.s0 <<< 11) % 2 ^ 32)
  let w := s.s3 % 2 ^ 32
  let n3 := w ^^^ (w >>> 19) ^^^ t ^^^ (t >>> 8)
  (n3, ⟨s.s1, s.s2, s.s3, n3⟩)

/-- A population row: `L + 1` unsigned words, score in word 0. -/
abbrev Row : Type := List Nat

/-- A population matrix: a list of rows. -/
abbrev Pop : Type := List Row

/-- `utils.swap_1d(a, b)`: elementwise swap over the indices of `a`
(the source loops `for x in range(array_a.shape[0])`).  Returns the new
contents of `a` and of `b`. -/
def swap_1d (a b : Row) : Row × Row :=
  ((List.range a.length).map (fun x => b.getD x 0),
   (List.range a.length).map (fun x => a.getD x 0) ++ b.drop a.length)

/-- Row lookup `population[k]`. -/
def rowAt (pop : Pop) (k : Nat) : Row :=
  pop.getD k []

/-- Score lookup `population[k, 0]`. -/
def scoreAt (pop : Pop) (k : Nat) : Nat :=
  (rowAt pop k).getD 0 0

/-- `swap_1d(population[a], population[b])` acting on the matrix: both
rows are replaced by the swap results. -/
def swapRows (pop : Pop) (a b : Nat) : Pop :=
  let r := swap_1d (rowAt pop a) (rowAt pop b)
  (pop.set a r.1).set b r.2

/-- Inner loop `while low <= high and population[low, 0] <= pivot`. -/
def scanLow (pop : Pop) (pivot high : Nat) : Nat → Nat → Nat
  | 0, low => low
  | fuel + 1, low =>
    if low ≤ high ∧ scoreAt pop low ≤ pivot then scanLow pop pivot high fuel (low + 1)
    else low

/-- Inner loop `while population[high, 0] >= pivot and high >= low`. -/
def scanHigh (pop : Pop) (pivot low : Nat) : Nat → Nat → Nat
  | 0, high => high
  | fuel + 1, high =>
    if pivot ≤ scoreAt pop high ∧ low ≤ high then scanHigh pop pivot low fuel (high - 1)
    else high

/-- The `while not done` loop of `utils.partition_population`: advance
`low`, retreat `high`, stop when they cross, else swap and repeat.
`none` on fuel exhaustion (never happens for the fuel used below). -/
def partLoop (pivot : Nat) : Nat → Pop → Nat → Nat → Option (Pop × Nat)
  | 0, _, _, _ => none
  | fuel + 1, pop, low, high =>
    let low' := scanLow pop pivot high (high + 2) low
    let high' := scanHigh pop pivot low' (high + 1) high
    if high' < low' then some (pop, high')
    else partLoop pivot fuel (swapRows pop low' high') low' high'

/-- `utils.partition_population(population, first_idx, last_idx)`:
Hoare partition by word 0 around the middle element; returns the final
pivot position. -/
def partition_population (pop : Pop) (first last : Nat) : Option (Pop × Nat) :=
  let pivot_idx := (last - first) / 2 + first
  let pivot := scoreAt pop pivot_idx
  let pop1 := swapRows pop pivot_idx first
  match partLoop pivot (last + 2) pop1 (first + 1) last with
  | none => none
  | some (pop2, high) => some (swapRows pop2 first high, high)

/-- The `while first_idx < last_idx and split_idx != divide_idx` loop of
`utils.divide_population`. -/
def divideLoop (divide : Nat) : Nat → Pop → Nat → Nat → Nat → Option Pop
  | 0, _, _, _, _ => none
  | fuel + 1, pop, first, last, split =>
    if first < last ∧ split ≠ divide then
      match partition_population pop first last with
      | none => none
      | some (pop', split') =>
        if divide < split' then divideLoop divide fuel pop' first (split' - 1) split'
        else if split' < divide then divideLoop divide fuel pop' (split' + 1) last split'
        else divideLoop divide fuel pop' first last split'
    else some pop

/-- `utils.divide_population(population, divide_idx)`. -/
def divide_population (pop : Pop) (divide : Nat) : Option Pop :=
  divideLoop divide (pop.length + 2) pop 0 (pop.length - 1) 0

/-- `utils.copy_1d(src, dst)`: overwrite every index of `dst` from `src`. -/
def copy_1d (src dst : Row) : Row :=
  (List.range dst.length).map (fun x => src.getD x 0)

/-! ## gridea.py: mutation and crossover -/

/-- The shared emit-with-diversion loop body of `copy_and_mutate` and
`crossover_and_mutate`.  Processes the emitted points in order, keeping
state `(shift_fwd_idx, shift_back_idx, out_idx)`, and logs each write to
`solution_out` as an `(index, point)` pair.  Returns the write log and
the final state. -/
def cmLoop (size : Nat) : List Nat → Nat → Nat → Nat →
    List (Nat × Nat) × Nat × Nat × Nat
  | [], sf, sb, out_idx => ([], sf, sb, out_idx)
  | point :: rest, sf, sb, out_idx =>
    if out_idx = sf then
      let r := cmLoop size rest 0 sb out_idx
      ((0, point) :: r.1, r.2)
    else if out_idx = sb then
      let r := cmLoop size rest sf 0 out_idx
      ((size - 1, point) :: r.1, r.2)
    else
      let r := cmLoop size rest sf sb (out_idx + 1)
      ((out_idx, point) :: r.1, r.2)

/-- `gridea.copy_and_mutate(solution_in, solution_out, random_state)`:
draw the two diversion indices and stream the input through the emit
loop.  Returns the write log for `solution_out` and the PRNG state. -/
def copy_and_mutate (solution_in : List Nat) (size : Nat) (rs : RState) :
    List (Nat × Nat) × RState :=
  let r1 := xorshift rs
  let r2 := xorshift r1.2
  let sf := r1.1 % (size - 1) + 1
  let sb := r2.1 % (size - 1) + 1
  ((cmLoop size solution_in sf sb 1).1, r2.2)

/-- The integer half-plane predicate of `crossover_and_mutate`. -/
def crossPred (i_mult j_mult split : Nat) (point : Nat) : Bool :=
  i_mult * (split_point point).1 + j_mult * (split_point point).2 ≤ split

/-- `gridea.crossover_and_mutate(solution_a, solution_b, solution_out,
random_state, puzzle)`: integer half-plane crossover with the same
diversion mutation, one pass over each parent.  Returns the write log
for `solution_out` and the PRNG state. -/
def crossover_and_mutate (solution_a solution_b : List Nat) (size H W : Nat)
    (rs : RState) : List (Nat × Nat) × RState :=
  let large_number := 10000
  let r1 := xorshift rs
  let split := r1.1 % large_number
  let r2 := xorshift r1.2
  let p := r2.1 % large_number
  let i_mult := p / H
  let j_mult := (large_number - p) / W
  let r3 := xorshift r2.2
  let r4 := xorshift r3.2
  let sf := r3.1 % (size - 1) + 1
  let sb := r4.1 % (size - 1) + 1
  let fst := cmLoop size (solution_a.filter (crossPred i_mult j_mult split)) sf sb 1
  let snd := cmLoop size (solution_b.filter (fun q => !crossPred i_mult j_mult split q))
    fst.2.1 fst.2.2.1 fst.2.2.2
  (fst.1 ++ snd.1, r4.2)

/-! ## network.py: the GlobalBest register -/

/-- The `network.GlobalBest` singleton state. -/
structure GlobalBest where
  puzzle_id : Option String
  score : Option Nat
  solution : Option (List Nat)
  timestamp : Nat

/-- `GlobalBest.reset(puzzle_id)`. -/
def GlobalBest.reset (pid : Option String) (now : Nat) : GlobalBest :=
  ⟨pid, none, none, now⟩

/-- `GlobalBest.update(puzzle_id, score, solution)`: returns whether a
new global best was established, plus the new register state.  `now`
stands for `time.time()`. -/
def GlobalBest.update (gb : GlobalBest) (pid : String) (sc : Nat)
    (sol : List Nat) (now : Nat) : Bool × GlobalBest :=
  if some pid ≠ gb.puzzle_id then (false, gb)
  else if gb.score.all (fun cur => sc < cur) then
    (true, ⟨gb.puzzle_id, some sc, some sol, now⟩)
  else (false, gb)

/-! ## initialize.py: heuristic seeding -/

/-- One sort key of `initialize.make_heuristic_list`: the six fixed
lexicographic keys, or one member `split·i + (1−split)·j − ratio·n` of
the parameterised family (`split = ij / 49.0`), represented by its
parameters `(ij, ratio)`. -/
inductive SortKey where
  | byNegNRowMajor : SortKey
  | byNegNColMajor : SortKey
  | byRowNegN : SortKey
  | byColNegN : SortKey
  | byRowMajor : SortKey
  | byColMajor : SortKey
  | angle (ij ratio : Nat) : SortKey
deriving DecidableEq, Repr

/-- `initialize.make_heuristic_list`: six fixed keys plus the 50×5
angle family, in construction order. -/
def make_heuristic_list : List SortKey :=
  [SortKey.byNegNRowMajor, SortKey.byNegNColMajor, SortKey.byRowNegN,
   SortKey.byColNegN, SortKey.byRowMajor, SortKey.byColMajor] ++
  (List.range 50).flatMap (fun ij => (List.range 5).map (fun ratio => SortKey.angle ij ratio))

/-- The `for k in range(num_heuristics, population.shape[0])` loop of
`initialize.fill_population_repeating`, processed from row `k` upward. -/
def fillFrom (num : Nat) : Nat → Pop → Pop
  | 0, pop => pop
  | fuel + 1, pop =>
    let k := pop.length - (fuel + 1)
    fillFrom num fuel (pop.set k (copy_1d (rowAt pop (k % num)) (rowAt pop k)))

/-- `initialize.fill_population_repeating(population, num_heuristics)`:
fill rows `num..end` by copying row `k % num` into row `k`. -/
def fill_population_repeating (pop : Pop) (num : Nat) : Pop :=
  fillFrom num (pop.length - num) pop

/-- A puzzle is well-formed when every in-bounds cell is a 0/1 byte. -/
def ZeroOne (pz : Puzzle) : Prop :=
  ∀ a b, a < pz.height → b < pz.width → pz.cell a b = 0 ∨ pz.cell a b = 1

/-- A point is valid when its 2×2 south-east block is inside the bounds
and all-interior (spec §3; equals membership in `get_valid_points` for
0/1 puzzles). -/
def ValidPoint (pz : Puzzle) (point : Nat) : Prop :=
  let i := (split_point point).1
  let j := (split_point point).2
  i + 1 < pz.height ∧ j + 1 < pz.width ∧
  pz.cell i j = 1 ∧ pz.cell i (j + 1) = 1 ∧
  pz.cell (i + 1) j = 1 ∧ pz.cell (i + 1) (j + 1) = 1

instance (pz : Puzzle) (point : Nat) : Decidable (ValidPoint pz point) := by
  simp only [ValidPoint]
  infer_instance

/-! ## Derived notions used by the statements and proofs -/

/-- Number of interior cells of a puzzle (`puzzle.sum()`). -/
def interiorCount (pz : Puzzle) : Nat :=
  onesCount pz.height pz.width pz.cell

/-- Two grids agree on every in-bounds cell. -/
def InB (H W : Nat) (g h : Grid) : Prop :=
  ∀ a b, a < H → b < W → g a b = h a b

/-- Cell `(a, b)` lies in the side-`n` square anchored at `(i, j)`. -/
def inSquare (i j n a b : Nat) : Prop :=
  i ≤ a ∧ a < i + n ∧ j ≤ b ∧ b < j + n

instance (i j n a b : Nat) : Decidable (inSquare i j n a b) := by
  unfold inSquare; infer_instance

/-- Cell `(a, b)` lies in the side-`n'` square but outside the side-`n`
square (the annulus the growth loop paints going from `n` to `n'`). -/
def inAnn (i j n n' a b : Nat) : Prop :=
  inSquare i j n' a b ∧ ¬(a < i + n ∧ b < j + n)

instance (i j n m a b : Nat) : Decidable (inAnn i j n m a b) := by
  unfold inAnn; infer_instance

/-- The grid after drawing a complete square: anchor `2`, body `3`. -/
def paintSq (g : Grid) (i j n : Nat) : Grid :=
  fun a b => if inSquare i j n a b then (if a = i ∧ b = j then 2 else 3) else g a b

/-- The cells covered by an API box (`X` is the column, `Y` the row). -/
def covers (bx : ApiBox) (r c : Nat) : Prop :=
  bx.Y ≤ r ∧ r < bx.Y + bx.Size ∧ bx.X ≤ c ∧ c < bx.X + bx.Size

instance (bx : ApiBox) (r c : Nat) : Decidable (covers bx r c) := by
  unfold covers; infer_instance

/-- Two boxes cover no common cell. -/
def BoxDisjoint (b1 b2 : ApiBox) : Prop :=
  ∀ r c, covers b1 r c → covers b2 r c → False

/-- Some recorded box of `bs` covers cell `(r, c)`. -/
def Covered (bs : List (Nat × Nat × Nat)) (r c : Nat) : Prop :=
  ∃ t ∈ bs, inSquare t.1 t.2.1 t.2.2 r c

/-- The 4×4 all-interior puzzle of spec scenarios S3/S4. -/
def puzzle4x4 : Puzzle :=
  ⟨4, 4, fun a b => if a < 4 ∧ b < 4 then 1 else 0⟩

/-- Concrete population used to witness the quickselect claims. -/
def wpop : Pop :=
  [[5, 0], [1, 1], [4, 2], [2, 3], [9, 4], [3, 5], [7, 6], [0, 7]]

end Gridea

namespace Gridea

/-! ## Basic row/matrix access lemmas -/

theorem rowAt_mem (pop : Pop) (m : Nat) (h : m < pop.length) : rowAt pop m ∈ pop := by
  unfold rowAt
  rw [List.getD_eq_getElem?_getD, List.getElem?_eq_getElem h]
  exact List.getElem_mem h

theorem rowAt_set (pop : Pop) (n : Nat) (v : Row) (m : Nat) :
    rowAt (pop.set n v) m = if n = m ∧ n < pop.length then v else rowAt pop m := by
  unfold rowAt
  rw [List.getD_eq_getElem?_getD, List.getD_eq_getElem?_getD, List.getElem?_set]
  by_cases h1 : n = m
  · subst h1
    by_cases h2 : n < pop.length
    · simp [h2]
    · simp [h2, List.getElem?_eq_none (Nat.le_of_not_lt h2)]
  · simp [h1]

theorem map_getD_range (l : Row) :
    (List.range l.length).map (fun x => l.getD x 0) = l := by
  induction l with
  | nil => simp
  | cons a t ih =>
    rw [List.length_cons, List.range_succ_eq_map, List.map_cons, List.map_map]
    have h : ∀ x ∈ List.range t.length,
        ((fun x => (a :: t).getD x 0) ∘ (· + 1)) x = t.getD x 0 := by
      intro x _
      simp [List.getD_cons_succ]
    rw [List.map_congr_left h, ih]
    simp

theorem copy_1d_of_length_eq (src dst : Row) (h : dst.length = src.length) :
    copy_1d src dst = src := by
  unfold copy_1d
  rw [h]
  exact map_getD_range src

/-! ## C8: heuristic count and repeating fill -/

theorem fillFrom_rowAt (num L : Nat) (hnum : 0 < num) :
    ∀ fuel (pop : Pop), fuel + num ≤ pop.length → (∀ r ∈ pop, r.length = L) →
    ∀ k, rowAt (fillFrom num fuel pop) k =
      if pop.length - fuel ≤ k ∧ k < pop.length then rowAt pop (k % num)
      else rowAt pop k := by
  intro fuel
  induction fuel with
  | zero =>
    intro pop _ _ k
    simp only [fillFrom, Nat.sub_zero]
    rw [if_neg (by omega)]
  | succ f ih =>
    intro pop hle hrect k
    have hk0lt : pop.length - (f + 1) < pop.length := by omega
    have hk0ge : num ≤ pop.length - (f + 1) := by omega
    have hmemk0 : rowAt pop (pop.length - (f + 1)) ∈ pop := rowAt_mem _ _ hk0lt
    have hmemmod : rowAt pop ((pop.length - (f + 1)) % num) ∈ pop :=
      rowAt_mem _ _ (lt_of_lt_of_le (Nat.mod_lt _ hnum) (le_of_lt (lt_of_le_of_lt hk0ge hk0lt)))
    have hcopy : copy_1d (rowAt pop ((pop.length - (f + 1)) % num))
        (rowAt pop (pop.length - (f + 1))) = rowAt pop ((pop.length - (f + 1)) % num) :=
      copy_1d_of_length_eq _ _ ((hrect _ hmemk0).trans (hrect _ hmemmod).symm)
    simp only [fillFrom]
    rw [hcopy]
    have hlen' : (pop.set (pop.length - (f + 1))
        (rowAt pop ((pop.length - (f + 1)) % num))).length = pop.length :=
      List.length_set ..
    have hrect' : ∀ r ∈ pop.set (pop.length - (f + 1))
        (rowAt pop ((pop.length - (f + 1)) % num)), r.length = L := by
      intro r hr
      rcases List.mem_or_eq_of_mem_set hr with h | h
      · exact hrect r h
      · exact h ▸ hrect _ hmemmod
    rw [ih _ (by rw [hlen']; omega) hrect' k, hlen']
    have hmodk := Nat.mod_lt k hnum
    have hmodk0 := Nat.mod_lt (pop.length - (f + 1)) hnum
    by_cases h1 : pop.length - f ≤ k ∧ k < pop.length
    · rw [if_pos h1, rowAt_set, if_neg (by omega), if_pos (by omega)]
    · rw [if_neg h1]
      by_cases h2 : k = pop.length - (f + 1)
      · rw [rowAt_set, if_pos ⟨h2.symm, hk0lt⟩, if_pos (by omega), h2]
      · rw [rowAt_set, if_neg (by omega), if_neg (by omega)]

set_option maxRecDepth 4000 in
/-- C8: `make_heuristic_list` contains exactly 256 sort keys (6 fixed
keys plus the 50×5 parameterised family), and `fill_population_repeating`
with `num_heuristics = 256` makes every row with index `k ≥ 256` a copy
of row `k % 256` (rows all have the same width `L`). -/
theorem heuristics_256_and_fill_mod (L : Nat) (pop : Pop)
    (hrect : ∀ r ∈ pop, r.length = L) (k : Nat) (h256 : 256 ≤ k)
    (hk : k < pop.length) :
    make_heuristic_list.length = 256 ∧
    rowAt (fill_population_repeating pop 256) k = rowAt pop (k % 256) := by
  constructor
  · decide
  · unfold fill_population_repeating
    rw [fillFrom_rowAt 256 L (by omega) (pop.length - 256) pop (by omega) hrect k,
      if_pos (by omega)]

/-- Witness for C8: a 257-row population of width-1 rows; row 256 of the
filled population is row 0. -/
theorem heuristics_256_and_fill_mod_witness :
    make_heuristic_list.length = 256 ∧
    rowAt (fill_population_repeating (List.replicate 257 [0]) 256) 256 =
      rowAt (List.replicate 257 [0]) (256 % 256) :=
  heuristics_256_and_fill_mod 1 (List.replicate 257 [0])
    (by
      intro r hr
      rw [List.eq_of_mem_replicate hr]
      rfl)
    256 (by omega) (by rw [List.length_replicate]; omega)

/-! ## C4: the mutation/crossover write logs are permutations -/

theorem cmLoop_map_snd (size : Nat) :
    ∀ (l : List Nat) (sf sb c : Nat), (cmLoop size l sf sb c).1.map Prod.snd = l := by
  intro l
  induction l with
  | nil => intro sf sb c; rfl
  | cons p rest ih =>
    intro sf sb c
    by_cases h1 : c = sf
    · simp only [cmLoop, if_pos h1, List.map_cons, ih]
    · by_cases h2 : c = sb
      · simp only [cmLoop, if_neg h1, if_pos h2, List.map_cons, ih]
      · simp only [cmLoop, if_neg h1, if_neg h2, List.map_cons, ih]

theorem cmLoop_append (size : Nat) :
    ∀ (l1 l2 : List Nat) (sf sb c : Nat),
    cmLoop size (l1 ++ l2) sf sb c =
      ((cmLoop size l1 sf sb c).1 ++
        (cmLoop size l2 (cmLoop size l1 sf sb c).2.1
          (cmLoop size l1 sf sb c).2.2.1 (cmLoop size l1 sf sb c).2.2.2).1,
       (cmLoop size l2 (cmLoop size l1 sf sb c).2.1
          (cmLoop size l1 sf sb c).2.2.1 (cmLoop size l1 sf sb c).2.2.2).2) := by
  intro l1
  induction l1 with
  | nil => intro l2 sf sb c; rfl
  | cons p rest ih =>
    intro l2 sf sb c
    by_cases h1 : c = sf
    · simp only [List.cons_append, cmLoop, if_pos h1, List.append_eq, ih, List.append_assoc]
    · by_cases h2 : c = sb
      · simp only [List.cons_append, cmLoop, if_neg h1, if_pos h2, List.append_eq, ih,
          List.append_assoc]
      · simp only [List.cons_append, cmLoop, if_neg h1, if_neg h2, List.append_eq, ih,
          List.append_assoc]

theorem if_zero_eq_zero {α : Sort _} (a b : α) : (if (0 : Nat) = 0 then a else b) = a :=
  if_pos rfl

/-- The write-log component of `cmLoop_append`. -/
theorem cmLoop_append_fst (size : Nat) (l1 l2 : List Nat) (sf sb c : Nat) :
    (cmLoop size (l1 ++ l2)  sf sb c).1 =
      (cmLoop size l1 sf sb c).1 ++
        (cmLoop size l2 (cmLoop size l1 sf sb c).2.1
          (cmLoop size l1 sf sb c).2.2.1 (cmLoop size l1 sf sb c).2.2.2).1 := by
  rw [cmLoop_append]

/-- The key invariant of the diversion loop: starting at out-index `c`
with pending diversion targets `sf`/`sb` (0 = already fired) and exactly
the right number of elements left, the written indices are a permutation
of {0 if pending} ∪ {size-1 if pending} ∪ {c, …, size-2}. -/
theorem cmLoop_map_fst (size : Nat) :
    ∀ (l : List Nat) (sf sb c : Nat), 1 ≤ c →
    (sf = 0 ∨ (c ≤ sf ∧ sf + 1 ≤ size)) →
    (sb = 0 ∨ (c ≤ sb ∧ sb + 1 ≤ size)) →
    l.length + c + (if sf = 0 then 1 else 0) + (if sb = 0 then 1 else 0) = size + 1 →
    ((cmLoop size l sf sb c).1.map Prod.fst).Perm
      ((if sf = 0 then [] else [0]) ++ (if sb = 0 then [] else [size - 1]) ++
        List.range' c (size - 1 - c)) := by
  intro l
  induction l with
  | nil =>
    intro sf sb c hc hsf hsb hlen
    rw [List.length_nil] at hlen
    rcases hsf with rfl | hsfB
    · rcases hsb with rfl | hsbB
      · try rw [if_zero_eq_zero] at hlen
        have hc1 : size - 1 - c = 0 := by omega
        simp only [cmLoop, List.map_nil, if_zero_eq_zero, hc1, List.range'_zero,
          List.nil_append]
        exact List.Perm.nil
      · have hsbne : sb ≠ 0 := by omega
        rw [if_neg hsbne] at hlen
        try rw [if_zero_eq_zero] at hlen
        exfalso
        omega
    · have hsfne : sf ≠ 0 := by omega
      rw [if_neg hsfne] at hlen
      rcases hsb with rfl | hsbB
      · try rw [if_zero_eq_zero] at hlen
        exfalso
        omega
      · have hsbne : sb ≠ 0 := by omega
        rw [if_neg hsbne] at hlen
        exfalso
        omega
  | cons p rest ih =>
    intro sf sb c hc hsf hsb hlen
    rw [List.length_cons] at hlen
    by_cases h1 : c = sf
    · have hsfne : sf ≠ 0 := by rcases hsf with rfl | h <;> omega
      rw [if_neg hsfne] at hlen
      simp only [cmLoop, if_pos h1, List.map_cons]
      rw [if_neg hsfne]
      have hrec := ih 0 sb c hc (Or.inl rfl) hsb (by try rw [if_zero_eq_zero]; omega)
      rw [if_zero_eq_zero, List.nil_append] at hrec
      exact hrec.cons 0
    · by_cases h2 : c = sb
      · have hsbne : sb ≠ 0 := by rcases hsb with rfl | h <;> omega
        rw [if_neg hsbne] at hlen
        simp only [cmLoop, if_neg h1, if_pos h2, List.map_cons]
        rw [if_neg hsbne]
        have hrec := ih sf 0 c hc hsf (Or.inl rfl) (by try rw [if_zero_eq_zero]; omega)
        rw [if_zero_eq_zero, List.append_nil] at hrec
        rw [List.append_assoc]
        exact (hrec.cons (size - 1)).trans List.perm_middle.symm
      · have hcbound : c + 1 ≤ size - 1 := by
          rcases hsf with rfl | hsfB
          · rcases hsb with rfl | hsbB
            · try rw [if_zero_eq_zero] at hlen
              omega
            · omega
          · omega
        simp only [cmLoop, if_neg h1, if_neg h2, List.map_cons]
        have hrec := ih sf sb (c + 1) (by omega)
          (by rcases hsf with rfl | hsfB
              · exact Or.inl rfl
              · exact Or.inr ⟨by omega, hsfB.2⟩)
          (by rcases hsb with rfl | hsbB
              · exact Or.inl rfl
              · exact Or.inr ⟨by omega, hsbB.2⟩)
          (by omega)
        have hsplit : List.range' c (size - 1 - c) =
            c :: List.range' (c + 1) (size - 1 - (c + 1)) := by
          rw [show size - 1 - c = (size - 1 - (c + 1)) + 1 by omega, List.range'_succ]
        rw [hsplit]
        exact (hrec.cons c).trans List.perm_middle.symm

/-- The three diversion slots reassemble into `range size`. -/
theorem slots_perm_range (size : Nat) (h : 2 ≤ size) :
    ([0] ++ [size - 1] ++ List.range' 1 (size - 1 - 1)).Perm (List.range size) := by
  obtain ⟨m, rfl⟩ : ∃ m, size = m + 2 := ⟨size - 2, by omega⟩
  have e2 : m + 2 - 1 - 1 = m := by omega
  have e1 : m + 2 - 1 = m + 1 := by omega
  rw [e2, e1, List.range_eq_range', List.range'_succ]
  refine List.Perm.cons 0 ?_
  rw [List.range'_concat]
  have e3 : 1 + 1 * m = m + 1 := by omega
  rw [e3]
  exact List.perm_append_comm

/-- C4: for any PRNG state, `copy_and_mutate(A, out)` and (for a second
parent `B` that is a permutation of `A`) `crossover_and_mutate(A, B,
out)` write a permutation into `out`: each writes every output slot
`0..L-1` exactly once, and the multiset of written values equals the
multiset of elements of `A`. -/
theorem mutate_ops_write_permutations (A B : List Nat) (size H W : Nat)
    (rs : RState) (hA : A.length = size) (hsize : 2 ≤ size) (hBA : B.Perm A) :
    ((copy_and_mutate A size rs).1.map Prod.fst).Perm (List.range size) ∧
    ((copy_and_mutate A size rs).1.map Prod.snd).Perm A ∧
    ((crossover_and_mutate A B size H W rs).1.map Prod.fst).Perm (List.range size) ∧
    ((crossover_and_mutate A B size H W rs).1.map Prod.snd).Perm A := by
  have hmod : ∀ r : Nat, 1 ≤ r % (size - 1) + 1 ∧ r % (size - 1) + 1 + 1 ≤ size := by
    intro r
    have := Nat.mod_lt r (y := size - 1) (by omega)
    omega
  refine ⟨?_, ?_, ?_, ?_⟩
  · unfold copy_and_mutate
    have h1 := hmod (xorshift rs).1
    have h2 := hmod (xorshift (xorshift rs).2).1
    have hfst := cmLoop_map_fst size A ((xorshift rs).1 % (size - 1) + 1)
      ((xorshift (xorshift rs).2).1 % (size - 1) + 1) 1 (by omega)
      (Or.inr ⟨by omega, by omega⟩) (Or.inr ⟨by omega, by omega⟩)
      (by rw [if_neg (by omega), if_neg (by omega)]; omega)
    rw [if_neg (by omega), if_neg (by omega)] at hfst
    exact hfst.trans (slots_perm_range size hsize)
  · unfold copy_and_mutate
    rw [cmLoop_map_snd]
  · simp only [crossover_and_mutate]
    have hlenf : (A.filter (crossPred (((xorshift (xorshift rs).2).1 % 10000) / H)
        ((10000 - (xorshift (xorshift rs).2).1 % 10000) / W) ((xorshift rs).1 % 10000)) ++
        B.filter (fun q => !crossPred (((xorshift (xorshift rs).2).1 % 10000) / H)
        ((10000 - (xorshift (xorshift rs).2).1 % 10000) / W) ((xorshift rs).1 % 10000) q)).length
        = size := by
      rw [List.length_append]
      have hp := (List.filter_append_perm (crossPred (((xorshift (xorshift rs).2).1 % 10000) / H)
        ((10000 - (xorshift (xorshift rs).2).1 % 10000) / W) ((xorshift rs).1 % 10000)) A).length_eq
      rw [List.length_append] at hp
      have hb : (B.filter (fun q => !crossPred (((xorshift (xorshift rs).2).1 % 10000) / H)
          ((10000 - (xorshift (xorshift rs).2).1 % 10000) / W) ((xorshift rs).1 % 10000) q)).length
          = (A.filter (fun q => !crossPred (((xorshift (xorshift rs).2).1 % 10000) / H)
          ((10000 - (xorshift (xorshift rs).2).1 % 10000) / W) ((xorshift rs).1 % 10000) q)).length :=
        (hBA.filter _).length_eq
      omega
    rw [← cmLoop_append_fst]
    have h3 := hmod (xorshift (xorshift (xorshift rs).2).2).1
    have h4 := hmod (xorshift (xorshift (xorshift (xorshift rs).2).2).2).1
    have hfst := cmLoop_map_fst size _ _ _ 1 (le_refl 1)
      (Or.inr ⟨h3.1, h3.2⟩) (Or.inr ⟨h4.1, h4.2⟩)
      (by rw [if_neg (by omega), if_neg (by omega), hlenf])
    rw [if_neg (by omega), if_neg (by omega)] at hfst
    exact hfst.trans (slots_perm_range size hsize)
  · simp only [crossover_and_mutate]
    rw [← cmLoop_append_fst, cmLoop_map_snd]
    exact ((List.filter_append_perm _ A).symm.trans
      (List.Perm.append_left _ (hBA.filter _).symm)).symm

/-- Witness for C4 on a concrete pair of 3-element parents. -/
theorem mutate_ops_write_permutations_witness :
    (((copy_and_mutate [10, 20, 30] 3 ⟨1, 2, 3, 4⟩).1.map Prod.fst).Perm (List.range 3) ∧
    ((copy_and_mutate [10, 20, 30] 3 ⟨1, 2, 3, 4⟩).1.map Prod.snd).Perm [10, 20, 30] ∧
    ((crossover_and_mutate [10, 20, 30] [30, 10, 20] 3 4 4 ⟨1, 2, 3, 4⟩).1.map
      Prod.fst).Perm (List.range 3) ∧
    ((crossover_and_mutate [10, 20, 30] [30, 10, 20] 3 4 4 ⟨1, 2, 3, 4⟩).1.map
      Prod.snd).Perm [10, 20, 30]) :=
  mutate_ops_write_permutations [10, 20, 30] [30, 10, 20] 3 4 4 ⟨1, 2, 3, 4⟩
    (by decide) (by decide) (by decide)

/-! ## C7: the PRNG regression value -/

/-- C7 (counterexample): from seed state `[1, 2, 3, 4]` the first value
returned by `xorshift` is NOT `0x00105A01` as the claim states. -/
theorem xorshift_seed1234_ne_claimed_value :
    ¬ (xorshift ⟨1, 2, 3, 4⟩).1 = 0x00105A01 := by decide

/-- C7 (amended): from seed state `[1, 2, 3, 4]`, computing
`t = s0 XOR (s0 << 11)`, rotating the state words, and setting the new
`s3` to `s3 XOR (s3 >> 19) XOR t XOR (t >> 8)` in wrapping unsigned
32-bit arithmetic, the first returned value is `0x0000080D` (2061), and
the state rotates to `[2, 3, 4, 0x0000080D]`. -/
theorem xorshift_seed1234_first_output :
    (xorshift ⟨1, 2, 3, 4⟩).1 = 0x0000080D ∧
    (xorshift ⟨1, 2, 3, 4⟩).2 = ⟨2, 3, 4, 0x0000080D⟩ := by decide

/-! ## C6: scoring the 4×4 puzzle on the permutation [(1,1), (0,0)] -/

/-- C6: on the 4×4 all-interior puzzle, both the unrolled scorer and the
expander give score 8 for the permutation `[(1,1), (0,0)]` (packed
`[0x10001, 0x0]`): one 3×3 square grown at `(1,1)`, the point `(0,0)`
blocked, and the seven remaining cells covered by 1×1 squares. -/
theorem score_4x4_perm_1_1_then_0_0 :
    score_solution puzzle4x4 16 (fun _ _ => 0) [0x10001, 0x0] = 8 ∧
    expand_solution puzzle4x4 [0x10001, 0x0] =
      [⟨1, 1, 3⟩, ⟨0, 0, 1⟩, ⟨1, 0, 1⟩, ⟨2, 0, 1⟩, ⟨3, 0, 1⟩,
       ⟨0, 1, 1⟩, ⟨0, 2, 1⟩, ⟨0, 3, 1⟩] ∧
    (expand_solution puzzle4x4 [0x10001, 0x0]).length = 8 := by decide

/-! ## C5: the GlobalBest register -/

/-- C5: `GlobalBest.update` returns true iff the id matches and the
stored score is unset or strictly beaten; on a mismatched id or an
equal-or-worse score it returns false and leaves the stored score and
solution unchanged; and the stored score never increases. -/
theorem globalbest_update_spec (gb : GlobalBest) (pid : String) (sc : Nat)
    (sol : List Nat) (now : Nat) :
    ((GlobalBest.update gb pid sc sol now).1 = true ↔
      (gb.puzzle_id = some pid ∧
        (gb.score = none ∨ ∃ cur, gb.score = some cur ∧ sc < cur))) ∧
    ((GlobalBest.update gb pid sc sol now).1 = false →
      (GlobalBest.update gb pid sc sol now).2.score = gb.score ∧
      (GlobalBest.update gb pid sc sol now).2.solution = gb.solution) ∧
    (∀ s cur, gb.score = some cur →
      (GlobalBest.update gb pid sc sol now).2.score = some s → s ≤ cur) := by
  rcases gb with ⟨gid, gsc, gsol, gts⟩
  by_cases hid : some pid = gid
  · rcases gsc with _ | cur
    · simp [GlobalBest.update, hid, Option.all]
    · by_cases hlt : sc < cur
      · simp only [GlobalBest.update, hid, Option.all] at *
        simp [hlt]
        omega
      · simp only [GlobalBest.update, hid, Option.all] at *
        simp [hlt]
  · simp [GlobalBest.update, hid, Option.all]
    refine ⟨fun h => absurd h.symm hid, fun s cur h1 h2 => ?_⟩
    rw [h1] at h2
    exact le_of_eq (Option.some.inj h2).symm

/-- Witness for C5 at a concrete register: an update with a strictly
better score on the matching id. -/
theorem globalbest_update_spec_witness :
    (((GlobalBest.update ⟨some "p", some 9, some [3], 0⟩ "p" 7 [1, 2] 5).1 = true ↔
      ((⟨some "p", some 9, some [3], 0⟩ : GlobalBest).puzzle_id = some "p" ∧
        ((⟨some "p", some 9, some [3], 0⟩ : GlobalBest).score = none ∨
          ∃ cur, (⟨some "p", some 9, some [3], 0⟩ : GlobalBest).score = some cur ∧ 7 < cur))) ∧
    ((GlobalBest.update ⟨some "p", some 9, some [3], 0⟩ "p" 7 [1, 2] 5).1 = false →
      (GlobalBest.update ⟨some "p", some 9, some [3], 0⟩ "p" 7 [1, 2] 5).2.score =
        (⟨some "p", some 9, some [3], 0⟩ : GlobalBest).score ∧
      (GlobalBest.update ⟨some "p", some 9, some [3], 0⟩ "p" 7 [1, 2] 5).2.solution =
        (⟨some "p", some 9, some [3], 0⟩ : GlobalBest).solution) ∧
    (∀ s cur, (⟨some "p", some 9, some [3], 0⟩ : GlobalBest).score = some cur →
      (GlobalBest.update ⟨some "p", some 9, some [3], 0⟩ "p" 7 [1, 2] 5).2.score = some s →
        s ≤ cur)) :=
  globalbest_update_spec ⟨some "p", some 9, some [3], 0⟩ "p" 7 [1, 2] 5


/-! ## Grid and growth-loop characterizations -/

theorem upd_apply (g : Grid) (i j v a b : Nat) :
    upd g i j v a b = if a = i ∧ b = j then v else g a b := rfl

theorem markRingAux_apply (g : Grid) (i j n : Nat) :
    ∀ (m : Nat) (a b : Nat),
    ((List.range m).foldl (fun h k => upd (upd h (i + n) (j + k) 3) (i + k) (j + n) 3) g) a b =
      if (a = i + n ∧ j ≤ b ∧ b < j + m) ∨ (b = j + n ∧ i ≤ a ∧ a < i + m) then 3
      else g a b := by
  intro m
  induction m with
  | zero =>
    intro a b
    simp only [List.range_zero, List.foldl_nil]
    rw [if_neg (by omega)]
  | succ m ih =>
    intro a b
    rw [List.range_succ, List.foldl_append, List.foldl_cons, List.foldl_nil]
    simp only [upd, ih]
    split_ifs <;> first | rfl | omega
  
theorem markRing_apply (g : Grid) (i j n a b : Nat) :
    markRing g i j n a b =
      if (a = i + n ∧ j ≤ b ∧ b < j + n + 1) ∨ (b = j + n ∧ i ≤ a ∧ a < i + n + 1) then 3
      else g a b :=
  markRingAux_apply g i j n (n + 1) a b

theorem checkRing_iff (g : Grid) (i j n : Nat) :
    checkRing g i j n ↔
      (∀ a b, ((a = i + n ∧ j ≤ b ∧ b < j + n + 1) ∨ (b = j + n ∧ i ≤ a ∧ a < i + n + 1)) →
        g a b = 1) := by
  constructor
  · intro h a b hc
    rcases hc with ⟨ha, hb1, hb2⟩ | ⟨hb, ha1, ha2⟩
    · have h1 := (h (b - j) (by omega)).1
      rw [show j + (b - j) = b by omega] at h1
      rw [ha]
      exact h1
    · have h2 := (h (a - i) (by omega)).2
      rw [show i + (a - i) = a by omega] at h2
      rw [hb]
      exact h2
  · intro h k hk
    exact ⟨h _ _ (Or.inl ⟨rfl, by omega, by omega⟩),
           h _ _ (Or.inr ⟨rfl, by omega, by omega⟩)⟩

theorem checkRing_of_agree (g h : Grid) (i j n : Nat)
    (hag : ∀ a b,
      ((a = i + n ∧ j ≤ b ∧ b < j + n + 1) ∨ (b = j + n ∧ i ≤ a ∧ a < i + n + 1)) →
      g a b = h a b) :
    checkRing g i j n → checkRing h i j n := by
  intro hc k hk
  have h1 := (hc k hk).1
  have h2 := (hc k hk).2
  rw [hag _ _ (Or.inl ⟨rfl, by omega, by omega⟩)] at h1
  rw [hag _ _ (Or.inr ⟨rfl, by omega, by omega⟩)] at h2
  exact ⟨h1, h2⟩

theorem checkRing_congr (g h : Grid) (i j n : Nat)
    (hag : ∀ a b,
      ((a = i + n ∧ j ≤ b ∧ b < j + n + 1) ∨ (b = j + n ∧ i ≤ a ∧ a < i + n + 1)) →
      g a b = h a b) :
    checkRing g i j n ↔ checkRing h i j n :=
  ⟨checkRing_of_agree g h i j n hag,
   checkRing_of_agree h g i j n (fun a b hc => (hag a b hc).symm)⟩

theorem growFrom_accs_bounded (H W i j : Nat) :
    ∀ (fuel : Nat) (g : Grid) (n a b : Nat),
    (a, b) ∈ (growFrom H W i j fuel g n).2.2 → a < H ∧ b < W := by
  intro fuel
  induction fuel with
  | zero =>
    intro g n a b h
    simp only [growFrom, List.not_mem_nil] at h
  | succ f ih =>
    intro g n a b h
    simp only [growFrom] at h
    split_ifs at h with h1 h2
    · rw [List.mem_append] at h
      rcases h with h | h
      · simp only [ringAccs, List.mem_flatMap, List.mem_range] at h
        obtain ⟨k, hk, hm⟩ := h
        simp only [List.mem_cons, List.mem_singleton, Prod.mk.injEq,
          List.not_mem_nil, or_false] at hm
        rcases hm with ⟨ha, hb⟩ | ⟨ha, hb⟩ <;> omega
      · exact ih _ _ _ _ h
    · simp only [ringAccs, List.mem_flatMap, List.mem_range] at h
      obtain ⟨k, hk, hm⟩ := h
      simp only [List.mem_cons, List.mem_singleton, Prod.mk.injEq,
        List.not_mem_nil, or_false] at hm
      rcases hm with ⟨ha, hb⟩ | ⟨ha, hb⟩ <;> omega
    · simp only [List.not_mem_nil] at h

theorem growFrom_fuel_congr (H W i j : Nat) :
    ∀ (f1 f2 : Nat) (g : Grid) (n : Nat), H ≤ n + f1 → H ≤ n + f2 →
    growFrom H W i j f1 g n = growFrom H W i j f2 g n := by
  intro f1
  induction f1 with
  | zero =>
    intro f2 g n h1 h2
    cases f2 with
    | zero => rfl
    | succ f => simp only [growFrom]; rw [if_neg (by omega)]
  | succ f ih =>
    intro f2 g n h1 h2
    cases f2 with
    | zero => simp only [growFrom]; rw [if_neg (by omega)]
    | succ f2 =>
      simp only [growFrom]
      by_cases hg : i + n < H ∧ j + n < W
      · rw [if_pos hg, if_pos hg]
        by_cases hc : checkRing g i j n
        · rw [if_pos hc, if_pos hc, ih f2 _ _ (by omega) (by omega)]
        · rw [if_neg hc, if_neg hc]
      · rw [if_neg hg, if_neg hg]

/-- Full characterization of the growth loop: starting at side `n` it
reaches some side `n' ≥ n`; if it grew at all then the side-`n'` square
fits in the grid; the final grid is the start grid with the annulus
between the side-`n` and side-`n'` squares painted `3`; and every
annulus cell was `1` in the start grid. -/
theorem growFrom_spec (H W i j : Nat) :
    ∀ (fuel : Nat) (g : Grid) (n : Nat),
    n ≤ (growFrom H W i j fuel g n).2.1 ∧
    ((growFrom H W i j fuel g n).2.1 ≠ n →
      i + (growFrom H W i j fuel g n).2.1 ≤ H ∧ j + (growFrom H W i j fuel g n).2.1 ≤ W) ∧
    (∀ a b, (growFrom H W i j fuel g n).1 a b =
      if inAnn i j n (growFrom H W i j fuel g n).2.1 a b then 3 else g a b) ∧
    (∀ a b, inAnn i j n (growFrom H W i j fuel g n).2.1 a b → g a b = 1) := by
  intro fuel
  induction fuel with
  | zero =>
    intro g n
    simp only [growFrom]
    refine ⟨le_refl n, fun h => absurd rfl h, ?_, ?_⟩
    · intro a b
      rw [if_neg (by simp only [inAnn, inSquare]; omega)]
    · intro a b h
      simp only [inAnn, inSquare] at h
      omega
  | succ f ih =>
    intro g n
    simp only [growFrom]
    by_cases hg : i + n < H ∧ j + n < W
    · rw [if_pos hg]
      by_cases hc : checkRing g i j n
      · rw [if_pos hc]
        dsimp only
        obtain ⟨ih1, ih2, ih3, ih4⟩ := ih (markRing g i j n) (n + 1)
        refine ⟨by omega, fun _ => ?_, ?_, ?_⟩
        · rcases eq_or_ne (growFrom H W i j f (markRing g i j n) (n + 1)).2.1 (n + 1) with he | he
          · rw [he]
            exact ⟨by omega, by omega⟩
          · exact ih2 he
        · intro a b
          rw [ih3 a b, markRing_apply]
          have hb1 := ih1
          simp only [inAnn, inSquare]
          split_ifs <;> first | rfl | omega
        · intro a b hab
          by_cases hr : (a = i + n ∧ j ≤ b ∧ b < j + n + 1) ∨
              (b = j + n ∧ i ≤ a ∧ a < i + n + 1)
          · exact (checkRing_iff g i j n).mp hc a b hr
          · have hb1 := ih1
            have h4 := ih4 a b (by
              simp only [inAnn, inSquare] at hab ⊢
              omega)
            rw [markRing_apply, if_neg hr] at h4
            exact h4
      · rw [if_neg hc]
        refine ⟨le_refl n, fun h => absurd rfl h, ?_, ?_⟩
        · intro a b
          rw [if_neg (by simp only [inAnn, inSquare]; omega)]
        · intro a b h
          simp only [inAnn, inSquare] at h
          omega
    · rw [if_neg hg]
      refine ⟨le_refl n, fun h => absurd rfl h, ?_, ?_⟩
      · intro a b
        rw [if_neg (by simp only [inAnn, inSquare]; omega)]
      · intro a b h
        simp only [inAnn, inSquare] at h
        omega

/-- The growth loop never reads or writes the anchor cell `(i, j)`, so
it commutes with storing a value there. -/
theorem growFrom_upd_corner (H W i j v : Nat) :
    ∀ (fuel : Nat) (g : Grid) (n : Nat), 1 ≤ n →
    growFrom H W i j fuel (upd g i j v) n =
      (upd (growFrom H W i j fuel g n).1 i j v,
       (growFrom H W i j fuel g n).2.1, (growFrom H W i j fuel g n).2.2) := by
  intro fuel
  induction fuel with
  | zero => intro g n _; rfl
  | succ f ih =>
    intro g n hn
    simp only [growFrom]
    by_cases hg : i + n < H ∧ j + n < W
    · rw [if_pos hg, if_pos hg]
      have hag : ∀ a b,
          ((a = i + n ∧ j ≤ b ∧ b < j + n + 1) ∨ (b = j + n ∧ i ≤ a ∧ a < i + n + 1)) →
          upd g i j v a b = g a b := by
        intro a b hc
        rw [upd_apply, if_neg (by omega)]
      have hcr := checkRing_congr (upd g i j v) g i j n hag
      by_cases hc : checkRing g i j n
      · rw [if_pos (hcr.mpr hc), if_pos hc]
        have hmark : markRing (upd g i j v) i j n = upd (markRing g i j n) i j v := by
          funext a b
          simp only [upd, markRing_apply]
          split_ifs <;> first | rfl | omega
        rw [hmark, ih _ _ (by omega)]
      · rw [if_neg (fun h => hc (hcr.mp h)), if_neg hc]
    · rw [if_neg hg, if_neg hg]

/-- The growth loop only reads in-bounds cells, so two grids that agree
in bounds grow identically (same final side and access log, and the
resulting grids again agree in bounds). -/
theorem growFrom_InB (H W i j : Nat) :
    ∀ (fuel : Nat) (g h : Grid) (n : Nat), InB H W g h →
    (growFrom H W i j fuel g n).2.1 = (growFrom H W i j fuel h n).2.1 ∧
    (growFrom H W i j fuel g n).2.2 = (growFrom H W i j fuel h n).2.2 ∧
    InB H W (growFrom H W i j fuel g n).1 (growFrom H W i j fuel h n).1 := by
  intro fuel
  induction fuel with
  | zero => intro g h n hInB; exact ⟨rfl, rfl, hInB⟩
  | succ f ih =>
    intro g h n hInB
    simp only [growFrom]
    by_cases hg : i + n < H ∧ j + n < W
    · rw [if_pos hg, if_pos hg]
      have hag : ∀ a b,
          ((a = i + n ∧ j ≤ b ∧ b < j + n + 1) ∨ (b = j + n ∧ i ≤ a ∧ a < i + n + 1)) →
          g a b = h a b := by
        intro a b hc
        exact hInB a b (by omega) (by omega)
      have hcr := checkRing_congr g h i j n hag
      by_cases hc : checkRing g i j n
      · rw [if_pos hc, if_pos (hcr.mp hc)]
        have hm : InB H W (markRing g i j n) (markRing h i j n) := by
          intro a b ha hb
          rw [markRing_apply, markRing_apply]
          split_ifs with hcond
          · rfl
          · exact hInB a b ha hb
        obtain ⟨e1, e2, e3⟩ := ih (markRing g i j n) (markRing h i j n) (n + 1) hm
        exact ⟨e1, by rw [e2], e3⟩
      · rw [if_neg hc, if_neg (fun hx => hc (hcr.mpr hx))]
        exact ⟨rfl, rfl, hInB⟩
    · rw [if_neg hg, if_neg hg]
      exact ⟨rfl, rfl, hInB⟩


/-! ## C9: every scratch access of the scorer is in bounds -/

theorem copyAccs_bounded (pz : Puzzle) (a b : Nat) (h : (a, b) ∈ copyAccs pz) :
    a < pz.height ∧ b < pz.width := by
  simp only [copyAccs, List.mem_flatMap, List.mem_map, List.mem_range, Prod.mk.injEq] at h
  obtain ⟨x, hx, y, hy, hxa, hyb⟩ := h
  omega

theorem scorePoint_accs_bounded (pz : Puzzle) (st : SState) (p : Nat)
    (hv : ValidPoint pz p) (a b : Nat)
    (h : (a, b) ∈ (scorePoint pz st p).accs) :
    (a, b) ∈ st.accs ∨ (a < pz.height ∧ b < pz.width) := by
  simp only [ValidPoint] at hv
  simp only [scorePoint] at h
  split_ifs at h with h1 h2 h3 h4 h5
  · -- full unroll: quad, bounds2, check5, bounds3, check7 all true
    simp only [List.append_assoc, List.mem_append, List.mem_cons, List.mem_singleton,
      Prod.mk.injEq, List.not_mem_nil, or_false] at h
    rcases h with h | h
    · exact Or.inl h
    rcases h with h | h
    rotate_left
    rcases h with h | h
    rotate_left
    rcases h with h | h
    rotate_left
    rcases h with h | h
    rotate_left
    rcases h with h | h
    rotate_left
    rcases h with h | h
    rotate_left
    · exact Or.inr (growFrom_accs_bounded _ _ _ _ _ _ _ a b h)
    all_goals right
    all_goals omega
  · -- quad, bounds2, check5, bounds3, but check7 false
    simp only [List.append_assoc, List.mem_append, List.mem_cons, List.mem_singleton,
      Prod.mk.injEq, List.not_mem_nil, or_false] at h
    rcases h with h | h
    · exact Or.inl h
    right
    omega
  · -- quad, bounds2, check5, bounds3 false
    simp only [List.append_assoc, List.mem_append, List.mem_cons, List.mem_singleton,
      Prod.mk.injEq, List.not_mem_nil, or_false] at h
    rcases h with h | h
    · exact Or.inl h
    right
    omega
  · -- quad, bounds2, check5 false
    simp only [List.append_assoc, List.mem_append, List.mem_cons, List.mem_singleton,
      Prod.mk.injEq, List.not_mem_nil, or_false] at h
    rcases h with h | h
    · exact Or.inl h
    right
    omega
  · -- quad true, bounds2 false
    simp only [List.append_assoc, List.mem_append, List.mem_cons, List.mem_singleton,
      Prod.mk.injEq, List.not_mem_nil, or_false] at h
    rcases h with h | h
    · exact Or.inl h
    right
    omega
  · -- quad false
    simp only [List.mem_append, List.mem_cons, List.mem_singleton,
      Prod.mk.injEq, List.not_mem_nil, or_false] at h
    rcases h with h | h
    · exact Or.inl h
    right
    omega

theorem scoreFold_accs_bounded (pz : Puzzle) :
    ∀ (sol : List Nat) (st : SState),
    (∀ p ∈ sol, ValidPoint pz p) →
    (∀ a b, (a, b) ∈ st.accs → a < pz.height ∧ b < pz.width) →
    ∀ a b, (a, b) ∈ (sol.foldl (scorePoint pz) st).accs → a < pz.height ∧ b < pz.width := by
  intro sol
  induction sol with
  | nil => intro st _ hst a b h; exact hst a b h
  | cons p rest ih =>
    intro st hv hst a b h
    refine ih (scorePoint pz st p) (fun q hq => hv q (List.mem_cons_of_mem _ hq)) ?_ a b h
    intro x y hxy
    rcases scorePoint_accs_bounded pz st p (hv p (List.mem_cons_self _ _)) x y hxy with h0 | h0
    · exact hst x y h0
    · exact h0

/-- C9: under the precondition that every point of the permutation is a
valid point (its whole 2×2 south-east block interior and in bounds),
every scratch-grid access logged by `score_solution` — the copy of the
puzzle, the unchecked unrolled n=2 neighbour reads `scratch[i, j+1]`,
`scratch[i+1, j]`, `scratch[i+1, j+1]`, the guarded n=3/n=4 reads, and
the growth loop — addresses a cell with row < height and col < width. -/
theorem score_accesses_in_bounds (pz : Puzzle) (scratch : Grid) (sol : List Nat)
    (hvalid : ∀ p ∈ sol, ValidPoint pz p) (a b : Nat)
    (hmem : (a, b) ∈ (scoreRun pz scratch sol).accs) :
    a < pz.height ∧ b < pz.width := by
  refine scoreFold_accs_bounded pz sol _ hvalid ?_ a b hmem
  intro x y hxy
  exact copyAccs_bounded pz x y hxy

/-- Witness for C9: on the 4×4 puzzle with the S4 permutation, the
unchecked neighbour access `(2, 2)` of the point `(1, 1)` is logged and
is in bounds. -/
theorem score_accesses_in_bounds_witness :
    2 < puzzle4x4.height ∧ 2 < puzzle4x4.width :=
  score_accesses_in_bounds puzzle4x4 (fun _ _ => 0) [0x10001, 0x0]
    (by decide) 2 2 (by decide)


/-! ## Counting 1-cells -/

theorem range_split (H i n : Nat) (hle : i + n ≤ H) :
    List.range H = (List.range' 0 i ++ List.range' i n) ++
      List.range' (i + n) (H - i - n) := by
  have e1 : List.range' 0 i ++ List.range' (0 + 1 * i) n 1 = List.range' 0 (n + i) :=
    List.range'_append 0 i n 1
  rw [Nat.zero_add, Nat.one_mul] at e1
  have e2 : List.range' 0 (i + n) ++ List.range' (0 + 1 * (i + n)) (H - i - n) 1 =
      List.range' 0 ((H - i - n) + (i + n)) :=
    List.range'_append 0 (i + n) (H - i - n) 1
  rw [Nat.zero_add, Nat.one_mul, show (H - i - n) + (i + n) = H by omega] at e2
  rw [List.range_eq_range', ← e2, e1, show n + i = i + n by omega]

theorem sum_map_range' (c : Nat) (f g : Nat → Nat) :
    ∀ (len start : Nat), (∀ a, start ≤ a → a < start + len → f a = g a + c) →
    ((List.range' start len).map f).sum = ((List.range' start len).map g).sum + len * c := by
  intro len
  induction len with
  | zero => intro start _; simp
  | succ l ih =>
    intro start h
    rw [List.range'_succ, List.map_cons, List.map_cons, List.sum_cons, List.sum_cons,
      h start (le_refl _) (by omega), ih (start + 1) (fun a h1 h2 => h a (by omega) (by omega)),
      Nat.succ_mul]
    omega

theorem sum_map_split (H i n c : Nat) (f g : Nat → Nat)
    (hle : i + n ≤ H)
    (hout : ∀ a, a < i ∨ i + n ≤ a → f a = g a)
    (hin : ∀ a, i ≤ a → a < i + n → f a = g a + c) :
    ((List.range H).map f).sum = ((List.range H).map g).sum + n * c := by
  rw [range_split H i n hle]
  simp only [List.map_append, List.sum_append]
  have h1 : ((List.range' 0 i).map f).sum = ((List.range' 0 i).map g).sum :=
    congrArg List.sum (List.map_congr_left (fun a ha => by
      rw [List.mem_range'_1] at ha
      exact hout a (by omega)))
  have h3 : ((List.range' (i + n) (H - i - n)).map f).sum =
      ((List.range' (i + n) (H - i - n)).map g).sum :=
    congrArg List.sum (List.map_congr_left (fun a ha => by
      rw [List.mem_range'_1] at ha
      exact hout a (by omega)))
  have h2 := sum_map_range' c f g n i (fun a ha1 ha2 => hin a ha1 ha2)
  omega

theorem filter_length_split (W j n : Nat) (p q : Nat → Bool)
    (hle : j + n ≤ W)
    (hout : ∀ b, b < j ∨ j + n ≤ b → p b = q b)
    (hin_p : ∀ b, j ≤ b → b < j + n → p b = true)
    (hin_q : ∀ b, j ≤ b → b < j + n → q b = false) :
    ((List.range W).filter p).length = ((List.range W).filter q).length + n := by
  rw [range_split W j n hle]
  simp only [List.filter_append, List.length_append]
  have h1 : (List.range' 0 j).filter p = (List.range' 0 j).filter q :=
    List.filter_congr (fun b hb => by
      rw [List.mem_range'_1] at hb
      exact hout b (by omega))
  have h3 : (List.range' (j + n) (W - j - n)).filter p =
      (List.range' (j + n) (W - j - n)).filter q :=
    List.filter_congr (fun b hb => by
      rw [List.mem_range'_1] at hb
      exact hout b (by omega))
  have h2p : (List.range' j n).filter p = List.range' j n :=
    List.filter_eq_self.mpr (fun b hb => by
      rw [List.mem_range'_1] at hb
      exact hin_p b (by omega) (by omega))
  have h2q : (List.range' j n).filter q = [] :=
    List.filter_eq_nil_iff.mpr (fun b hb => by
      rw [List.mem_range'_1] at hb
      simp [hin_q b (by omega) (by omega)])
  rw [h1, h3, h2p, h2q, List.length_range', List.length_nil]
  omega

theorem onesCount_congr (H W : Nat) (g h : Grid) (hInB : InB H W g h) :
    onesCount H W g = onesCount H W h := by
  unfold onesCount
  exact congrArg List.sum (List.map_congr_left (fun a ha =>
    congrArg List.length (List.filter_congr (fun b hb => by
      rw [hInB a b (List.mem_range.mp ha) (List.mem_range.mp hb)]))))

theorem onesCount_paintSq (H W : Nat) (g : Grid) (i j n : Nat)
    (hH : i + n ≤ H) (hW : j + n ≤ W)
    (hone : ∀ a b, inSquare i j n a b → g a b = 1) :
    onesCount H W g = onesCount H W (paintSq g i j n) + n * n := by
  unfold onesCount
  refine sum_map_split H i n n _ _ hH ?_ ?_
  · intro a ha
    refine congrArg List.length (List.filter_congr (fun b _ => ?_))
    have : paintSq g i j n a b = g a b := by
      simp only [paintSq]
      rw [if_neg (by simp only [inSquare]; omega)]
    rw [this]
  · intro a h1 h2
    refine filter_length_split W j n _ _ hW ?_ ?_ ?_
    · intro b hb
      have : paintSq g i j n a b = g a b := by
        simp only [paintSq]
        rw [if_neg (by simp only [inSquare]; omega)]
      rw [this]
    · intro b hb1 hb2
      have := hone a b (by simp only [inSquare]; omega)
      simp [this]
    · intro b hb1 hb2
      simp only [paintSq]
      rw [if_pos (by simp only [inSquare]; omega)]
      split_ifs <;> rfl

theorem sweep_length (pz : Puzzle) (g : Grid) :
    (sweep pz g).length = onesCount pz.height pz.width g := by
  unfold sweep onesCount
  rw [List.length_flatMap]
  refine congrArg List.sum (List.map_congr_left (fun a _ => ?_))
  simp [Function.comp, List.length_map]


/-! ## Unfolding the growth loop and the scorer unrolled chains -/

theorem growFrom_step (H W i j fuel : Nat) (g : Grid) (n : Nat)
    (hg : i + n < H ∧ j + n < W) (hc : checkRing g i j n) (hfuel : H ≤ n + fuel) :
    growFrom H W i j fuel g n =
      ((growFrom H W i j fuel (markRing g i j n) (n + 1)).1,
       (growFrom H W i j fuel (markRing g i j n) (n + 1)).2.1,
       ringAccs i j n ++ (growFrom H W i j fuel (markRing g i j n) (n + 1)).2.2) := by
  cases fuel with
  | zero => exact absurd hg.1 (by omega)
  | succ f =>
    have key : growFrom H W i j (f + 1) g n =
        ((growFrom H W i j f (markRing g i j n) (n + 1)).1,
         (growFrom H W i j f (markRing g i j n) (n + 1)).2.1,
         ringAccs i j n ++ (growFrom H W i j f (markRing g i j n) (n + 1)).2.2) := by
      simp only [growFrom]
      rw [if_pos hg, if_pos hc]
    rw [key, ← growFrom_fuel_congr H W i j f (f + 1) (markRing g i j n) (n + 1)
      (by omega) (by omega)]

theorem growFrom_stop_wall (H W i j fuel : Nat) (g : Grid) (n : Nat)
    (hg : i + n < H ∧ j + n < W) (hc : ¬ checkRing g i j n) (hfuel : 1 ≤ fuel) :
    growFrom H W i j fuel g n = (g, n, ringAccs i j n) := by
  cases fuel with
  | zero => omega
  | succ f =>
    simp only [growFrom]
    rw [if_pos hg, if_neg hc]

theorem growFrom_stop_bound (H W i j fuel : Nat) (g : Grid) (n : Nat)
    (hg : ¬ (i + n < H ∧ j + n < W)) :
    growFrom H W i j fuel g n = (g, n, []) := by
  cases fuel with
  | zero => rfl
  | succ f =>
    simp only [growFrom]
    rw [if_neg hg]

theorem checkRing_upd_corner (m : Grid) (i j v n : Nat) (hn : 1 ≤ n) :
    checkRing (upd m i j v) i j n ↔ checkRing m i j n :=
  checkRing_congr (upd m i j v) m i j n (fun a b hc => by
    rw [upd_apply, if_neg (by omega)])

theorem checkRing_one_iff (h : Grid) (i j : Nat) :
    checkRing h i j 1 ↔
      (h i (j + 1) = 1 ∧ h (i + 1) j = 1 ∧ h (i + 1) (j + 1) = 1) := by
  constructor
  · intro hc
    have h0 := hc 0 (by omega)
    have h1 := hc 1 (by omega)
    simp only [Nat.add_zero] at h0
    exact ⟨h0.2, h0.1, h1.1⟩
  · rintro ⟨c1, c2, c3⟩ k hk
    have hk2 : k = 0 ∨ k = 1 := by omega
    rcases hk2 with rfl | rfl
    · exact ⟨by simpa using c2, by simpa using c1⟩
    · exact ⟨c3, c3⟩

theorem checkRing_two_iff (h : Grid) (i j : Nat) :
    checkRing h i j 2 ↔
      (h i (j + 2) = 1 ∧ h (i + 1) (j + 2) = 1 ∧ h (i + 2) j = 1 ∧
        h (i + 2) (j + 1) = 1 ∧ h (i + 2) (j + 2) = 1) := by
  constructor
  · intro hc
    have h0 := hc 0 (by omega)
    have h1 := hc 1 (by omega)
    have h2 := hc 2 (by omega)
    simp only [Nat.add_zero] at h0
    exact ⟨h0.2, h1.2, h0.1, h1.1, h2.1⟩
  · rintro ⟨c1, c2, c3, c4, c5⟩ k hk
    have hk3 : k = 0 ∨ k = 1 ∨ k = 2 := by omega
    rcases hk3 with rfl | rfl | rfl
    · exact ⟨by simpa using c3, by simpa using c1⟩
    · exact ⟨c4, c2⟩
    · exact ⟨c5, c5⟩

theorem checkRing_three_iff (h : Grid) (i j : Nat) :
    checkRing h i j 3 ↔
      (h (i + 3) j = 1 ∧ h (i + 3) (j + 1) = 1 ∧ h (i + 3) (j + 2) = 1 ∧
        h (i + 3) (j + 3) = 1 ∧ h i (j + 3) = 1 ∧ h (i + 1) (j + 3) = 1 ∧
        h (i + 2) (j + 3) = 1) := by
  constructor
  · intro hc
    have h0 := hc 0 (by omega)
    have h1 := hc 1 (by omega)
    have h2 := hc 2 (by omega)
    have h3 := hc 3 (by omega)
    simp only [Nat.add_zero] at h0
    exact ⟨h0.1, h1.1, h2.1, h3.1, h0.2, h1.2, h2.2⟩
  · rintro ⟨c1, c2, c3, c4, c5, c6, c7⟩ k hk
    have hk4 : k = 0 ∨ k = 1 ∨ k = 2 ∨ k = 3 := by omega
    rcases hk4 with rfl | rfl | rfl | rfl
    · exact ⟨by simpa using c1, by simpa using c5⟩
    · exact ⟨c2, c6⟩
    · exact ⟨c3, c7⟩
    · exact ⟨c4, c4⟩

/-- The unrolled n=2 writes of `score_solution` equal painting ring 1
and then the anchor. -/
theorem quad_chain_char (g : Grid) (i j : Nat) :
    upd (upd (upd (upd g i j 2) i (j + 1) 3) (i + 1) j 3) (i + 1) (j + 1) 3 =
      upd (markRing g i j 1) i j 2 := by
  funext a b
  simp only [upd, markRing_apply]
  split_ifs <;> first | rfl | omega

/-- The unrolled n=3 writes of `score_solution`, applied over a grid
with the anchor already set, equal painting ring 2 under the anchor. -/
theorem ring2_chain_char (m : Grid) (i j v : Nat) :
    upd (upd (upd (upd (upd (upd m i j v) i (j + 2) 3) (i + 1) (j + 2) 3)
      (i + 2) j 3) (i + 2) (j + 1) 3) (i + 2) (j + 2) 3 =
      upd (markRing m i j 2) i j v := by
  funext a b
  simp only [upd, markRing_apply]
  split_ifs <;> first | rfl | omega

/-- The unrolled n=4 writes of `score_solution`, applied over a grid
with the anchor already set, equal painting ring 3 under the anchor. -/
theorem ring3_chain_char (m : Grid) (i j v : Nat) :
    upd (upd (upd (upd (upd (upd (upd (upd m i j v) i (j + 3) 3) (i + 1) (j + 3) 3)
      (i + 2) (j + 3) 3) (i + 3) j 3) (i + 3) (j + 1) 3) (i + 3) (j + 2) 3)
      (i + 3) (j + 3) 3 =
      upd (markRing m i j 3) i j v := by
  funext a b
  simp only [upd, markRing_apply]
  split_ifs <;> first | rfl | omega


/-! ## Per-point characterization of the expander -/

/-- One point of `expand_solution` either leaves the state unchanged or
paints a complete all-empty in-bounds square of side `n ≥ 2` and records
the box. -/
theorem expandPoint_spec (pz : Puzzle) (g : Grid) (bs : List (Nat × Nat × Nat)) (p : Nat) :
    expandPoint pz (g, bs) p = (g, bs) ∨
    (∃ n, 2 ≤ n ∧ (split_point p).1 + n ≤ pz.height ∧ (split_point p).2 + n ≤ pz.width ∧
      (∀ a b, inSquare (split_point p).1 (split_point p).2 n a b → g a b = 1) ∧
      expandPoint pz (g, bs) p =
        (paintSq g (split_point p).1 (split_point p).2 n,
         bs ++ [((split_point p).1, (split_point p).2, n)])) := by
  obtain ⟨i, j, hsij⟩ : ∃ i j, split_point p = (i, j) := ⟨_, _, rfl⟩
  simp only [expandPoint, hsij]
  by_cases hij : g i j = 1
  · rw [if_pos hij]
    obtain ⟨s1, s2, s3, s4⟩ := growFrom_spec pz.height pz.width i j pz.height g 1
    by_cases hn : (growFrom pz.height pz.width i j pz.height g 1).2.1 > 1
    · rw [if_pos hn]
      right
      refine ⟨(growFrom pz.height pz.width i j pz.height g 1).2.1, by omega,
        (s2 (by omega)).1, (s2 (by omega)).2, ?_, ?_⟩
      · intro a b hab
        simp only [inSquare] at hab
        by_cases hcorner : a = i ∧ b = j
        · rw [hcorner.1, hcorner.2]
          exact hij
        · refine s4 a b ?_
          simp only [inAnn, inSquare]
          omega
      · rw [Prod.mk.injEq]
        refine ⟨?_, rfl⟩
        funext a b
        rw [upd_apply, s3 a b]
        simp only [paintSq, inAnn, inSquare]
        split_ifs <;> first | rfl | omega
    · rw [if_neg hn]
      left
      have hn1 : (growFrom pz.height pz.width i j pz.height g 1).2.1 = 1 := by omega
      rw [Prod.mk.injEq]
      refine ⟨?_, rfl⟩
      funext a b
      rw [s3 a b, if_neg (by simp only [inAnn, inSquare, hn1]; omega)]
  · rw [if_neg hij]
    left
    rfl


/-! ## Per-point characterization of the unrolled scorer -/

/-- One point of `score_solution`: if the cell and its three unrolled
neighbours are empty, the step paints exactly the square the growth loop
would grow from side 1, sets the anchor, and counts one square of the
grown side; otherwise the grid and the counters are untouched. -/
theorem scorePoint_char (pz : Puzzle) (st : SState) (p : Nat)
    (hb1 : (split_point p).1 + 1 < pz.height) (hb2 : (split_point p).2 + 1 < pz.width) :
    ((st.g (split_point p).1 (split_point p).2 = 1 ∧
      checkRing st.g (split_point p).1 (split_point p).2 1) →
      2 ≤ (growFrom pz.height pz.width (split_point p).1 (split_point p).2 pz.height st.g 1).2.1 ∧
      (scorePoint pz st p).g =
        upd (growFrom pz.height pz.width (split_point p).1 (split_point p).2 pz.height st.g 1).1
          (split_point p).1 (split_point p).2 2 ∧
      (scorePoint pz st p).score = st.score + 1 ∧
      (scorePoint pz st p).tiles = st.tiles +
        (growFrom pz.height pz.width (split_point p).1 (split_point p).2 pz.height st.g 1).2.1 *
        (growFrom pz.height pz.width (split_point p).1 (split_point p).2 pz.height st.g 1).2.1) ∧
    (¬ (st.g (split_point p).1 (split_point p).2 = 1 ∧
        checkRing st.g (split_point p).1 (split_point p).2 1) →
      (scorePoint pz st p).g = st.g ∧ (scorePoint pz st p).score = st.score ∧
      (scorePoint pz st p).tiles = st.tiles) := by
  obtain ⟨i, j, hsij⟩ : ∃ i j, split_point p = (i, j) := ⟨_, _, rfl⟩
  simp only [hsij] at hb1 hb2 ⊢
  have hquadiff : (st.g i j = 1 ∧ st.g i (j + 1) = 1 ∧ st.g (i + 1) j = 1 ∧
      st.g (i + 1) (j + 1) = 1) ↔ (st.g i j = 1 ∧ checkRing st.g i j 1) := by
    rw [checkRing_one_iff]
  constructor
  · rintro ⟨hc0, hc1⟩
    simp only [scorePoint, hsij]
    rw [if_pos (hquadiff.mpr ⟨hc0, hc1⟩), quad_chain_char st.g i j]
    have hs1 := growFrom_step pz.height pz.width i j pz.height st.g 1
      ⟨by omega, by omega⟩ hc1 (by omega)
    by_cases hbound2 : i + 2 < pz.height ∧ j + 2 < pz.width
    · rw [if_pos hbound2]
      have hcond2 : ((upd (markRing st.g i j 1) i j 2) i (j + 2) = 1 ∧
          (upd (markRing st.g i j 1) i j 2) (i + 1) (j + 2) = 1 ∧
          (upd (markRing st.g i j 1) i j 2) (i + 2) j = 1 ∧
          (upd (markRing st.g i j 1) i j 2) (i + 2) (j + 1) = 1 ∧
          (upd (markRing st.g i j 1) i j 2) (i + 2) (j + 2) = 1) ↔
          checkRing (markRing st.g i j 1) i j 2 :=
        (checkRing_two_iff _ i j).symm.trans (checkRing_upd_corner _ i j 2 2 (by omega))
      by_cases hck2 : checkRing (markRing st.g i j 1) i j 2
      · rw [if_pos (hcond2.mpr hck2), ring2_chain_char (markRing st.g i j 1) i j 2]
        have hs2 := growFrom_step pz.height pz.width i j pz.height (markRing st.g i j 1) 2
          hbound2 hck2 (by omega)
        by_cases hbound3 : i + 3 < pz.height ∧ j + 3 < pz.width
        · rw [if_pos hbound3]
          have hcond3 : ((upd (markRing (markRing st.g i j 1) i j 2) i j 2) (i + 3) j = 1 ∧
              (upd (markRing (markRing st.g i j 1) i j 2) i j 2) (i + 3) (j + 1) = 1 ∧
              (upd (markRing (markRing st.g i j 1) i j 2) i j 2) (i + 3) (j + 2) = 1 ∧
              (upd (markRing (markRing st.g i j 1) i j 2) i j 2) (i + 3) (j + 3) = 1 ∧
              (upd (markRing (markRing st.g i j 1) i j 2) i j 2) i (j + 3) = 1 ∧
              (upd (markRing (markRing st.g i j 1) i j 2) i j 2) (i + 1) (j + 3) = 1 ∧
              (upd (markRing (markRing st.g i j 1) i j 2) i j 2) (i + 2) (j + 3) = 1) ↔
              checkRing (markRing (markRing st.g i j 1) i j 2) i j 3 :=
            (checkRing_three_iff _ i j).symm.trans (checkRing_upd_corner _ i j 2 3 (by omega))
          by_cases hck3 : checkRing (markRing (markRing st.g i j 1) i j 2) i j 3
          · rw [if_pos (hcond3.mpr hck3), ring3_chain_char (markRing (markRing st.g i j 1) i j 2) i j 2]
            have hs3 := growFrom_step pz.height pz.width i j pz.height (markRing (markRing st.g i j 1) i j 2) 3
              hbound3 hck3 (by omega)
            rw [growFrom_upd_corner pz.height pz.width i j 2 pz.height (markRing (markRing (markRing st.g i j 1) i j 2) i j 3) 4 (by omega)]
            have en : (growFrom pz.height pz.width i j pz.height st.g 1).2.1 = (growFrom pz.height pz.width i j pz.height (markRing (markRing (markRing st.g i j 1) i j 2) i j 3) 4).2.1 := by
              rw [hs1, hs2, hs3]
            have eg : (growFrom pz.height pz.width i j pz.height st.g 1).1 = (growFrom pz.height pz.width i j pz.height (markRing (markRing (markRing st.g i j 1) i j 2) i j 3) 4).1 := by
              rw [hs1, hs2, hs3]
            have hK := (growFrom_spec pz.height pz.width i j pz.height (markRing (markRing (markRing st.g i j 1) i j 2) i j 3) 4).1
            refine ⟨by omega, ?_, rfl, ?_⟩
            · rw [eg]
            · rw [en]
          · rw [if_neg (fun h => hck3 (hcond3.mp h))]
            have hR3 := growFrom_stop_wall pz.height pz.width i j pz.height (markRing (markRing st.g i j 1) i j 2) 3
              hbound3 hck3 (by omega)
            have en : (growFrom pz.height pz.width i j pz.height st.g 1).2.1 = 3 := by
              rw [hs1, hs2, hR3]
            have eg : (growFrom pz.height pz.width i j pz.height st.g 1).1 = (markRing (markRing st.g i j 1) i j 2) := by
              rw [hs1, hs2, hR3]
            refine ⟨by omega, ?_, rfl, ?_⟩
            · rw [eg]
            · rw [en]
        · rw [if_neg hbound3]
          have hR3 := growFrom_stop_bound pz.height pz.width i j pz.height (markRing (markRing st.g i j 1) i j 2) 3 hbound3
          have en : (growFrom pz.height pz.width i j pz.height st.g 1).2.1 = 3 := by
            rw [hs1, hs2, hR3]
          have eg : (growFrom pz.height pz.width i j pz.height st.g 1).1 = (markRing (markRing st.g i j 1) i j 2) := by
            rw [hs1, hs2, hR3]
          refine ⟨by omega, ?_, rfl, ?_⟩
          · rw [eg]
          · rw [en]
      · rw [if_neg (fun h => hck2 (hcond2.mp h))]
        have hR2 := growFrom_stop_wall pz.height pz.width i j pz.height (markRing st.g i j 1) 2
          hbound2 hck2 (by omega)
        have en : (growFrom pz.height pz.width i j pz.height st.g 1).2.1 = 2 := by
          rw [hs1, hR2]
        have eg : (growFrom pz.height pz.width i j pz.height st.g 1).1 = (markRing st.g i j 1) := by
          rw [hs1, hR2]
        refine ⟨by omega, ?_, rfl, ?_⟩
        · rw [eg]
        · rw [en]
    · rw [if_neg hbound2]
      have hR2 := growFrom_stop_bound pz.height pz.width i j pz.height (markRing st.g i j 1) 2 hbound2
      have en : (growFrom pz.height pz.width i j pz.height st.g 1).2.1 = 2 := by
        rw [hs1, hR2]
      have eg : (growFrom pz.height pz.width i j pz.height st.g 1).1 = (markRing st.g i j 1) := by
        rw [hs1, hR2]
      refine ⟨by omega, ?_, rfl, ?_⟩
      · rw [eg]
      · rw [en]
  · intro hq
    simp only [scorePoint, hsij]
    rw [if_neg (fun h => hq (hquadiff.mp h))]
    exact ⟨rfl, rfl, rfl⟩


/-! ## Valid points -/

theorem split_pack (i j : Nat) (hj : j < 65536) :
    split_point (pack_point i j) = (i, j) := by
  unfold split_point pack_point
  rw [Nat.shiftLeft_eq, Nat.shiftRight_eq_div_pow]
  have hp : (2 : Nat) ^ 16 = 65536 := by norm_num
  have ha : (0xffff : Nat) = 2 ^ 16 - 1 := by norm_num
  rw [ha, Nat.and_pow_two_sub_one_eq_mod, hp, Prod.mk.injEq]
  constructor
  · omega
  · omega

theorem valid_of_mem_get_valid_points (pz : Puzzle) (h01 : ZeroOne pz)
    (hW : pz.width ≤ 65536) (p : Nat) (hp : p ∈ get_valid_points pz) :
    ValidPoint pz p := by
  simp only [get_valid_points, List.mem_flatMap, List.mem_map, List.mem_filter,
    List.mem_range] at hp
  obtain ⟨i, hi, j, ⟨hj, hsum⟩, rfl⟩ := hp
  rw [beq_iff_eq] at hsum
  have c1 := h01 i j (by omega) (by omega)
  have c2 := h01 i (j + 1) (by omega) (by omega)
  have c3 := h01 (i + 1) j (by omega) (by omega)
  have c4 := h01 (i + 1) (j + 1) (by omega) (by omega)
  simp only [ValidPoint, split_pack i j (by omega)]
  refine ⟨by omega, by omega, by omega, by omega, by omega, by omega⟩

/-! ## Per-point equivalence of scorer and expander -/

theorem InB_upd (H W : Nat) (g h : Grid) (i j v : Nat) (hInB : InB H W g h) :
    InB H W (upd g i j v) (upd h i j v) := by
  intro a b ha hb
  rw [upd_apply, upd_apply]
  split_ifs
  · rfl
  · exact hInB a b ha hb

/-- On grids that agree in bounds, one scorer point and one expander
point stay in lock-step: the resulting grids again agree in bounds, and
either both skip the point, or both draw the same square of side
`n ≥ 2`, with the scorer adding one square and `n · n` tiles and the
1-cell count of the expander grid dropping by `n · n`. -/
theorem step_equiv (pz : Puzzle) (g : Grid) (bs : List (Nat × Nat × Nat)) (st : SState)
    (p : Nat) (hv : ValidPoint pz p) (hInB : InB pz.height pz.width g st.g) :
    InB pz.height pz.width (expandPoint pz (g, bs) p).1 (scorePoint pz st p).g ∧
    ((expandPoint pz (g, bs) p = (g, bs) ∧ (scorePoint pz st p).score = st.score ∧
      (scorePoint pz st p).tiles = st.tiles) ∨
     (∃ n, 2 ≤ n ∧
       (expandPoint pz (g, bs) p).2 = bs ++ [((split_point p).1, (split_point p).2, n)] ∧
       (scorePoint pz st p).score = st.score + 1 ∧
       (scorePoint pz st p).tiles = st.tiles + n * n ∧
       onesCount pz.height pz.width g =
         onesCount pz.height pz.width (expandPoint pz (g, bs) p).1 + n * n)) := by
  obtain ⟨i, j, hsij⟩ : ∃ i j, split_point p = (i, j) := ⟨_, _, rfl⟩
  simp only [ValidPoint, hsij] at hv
  simp only [hsij]
  obtain ⟨hb1, hb2, _, _, _, _⟩ := hv
  have hag : ∀ a b,
      ((a = i + 1 ∧ j ≤ b ∧ b < j + 1 + 1) ∨ (b = j + 1 ∧ i ≤ a ∧ a < i + 1 + 1)) →
      g a b = st.g a b := by
    intro a b hc
    exact hInB a b (by omega) (by omega)
  have hcr_iff := checkRing_congr g st.g i j 1 hag
  have hcorner_iff : g i j = st.g i j := hInB i j (by omega) (by omega)
  obtain ⟨hpos, hneg⟩ := scorePoint_char pz st p (by rw [hsij]; exact hb1) (by rw [hsij]; exact hb2)
  simp only [hsij] at hpos hneg
  by_cases hE : g i j = 1 ∧ checkRing g i j 1
  · -- both draw a square
    obtain ⟨hsc2, hscg, hscs, hsct⟩ := hpos ⟨by rw [← hcorner_iff]; exact hE.1, hcr_iff.mp hE.2⟩
    have hs1e := growFrom_step pz.height pz.width i j pz.height g 1
      ⟨by omega, by omega⟩ hE.2 (by omega)
    have hge2 : 2 ≤ (growFrom pz.height pz.width i j pz.height g 1).2.1 := by
      have := (growFrom_spec pz.height pz.width i j pz.height (markRing g i j 1) 2).1
      rw [hs1e]
      exact this
    have hexp : expandPoint pz (g, bs) p =
        (upd (growFrom pz.height pz.width i j pz.height g 1).1 i j 2,
         bs ++ [(i, j, (growFrom pz.height pz.width i j pz.height g 1).2.1)]) := by
      simp only [expandPoint, hsij]
      rw [if_pos hE.1, if_pos (by omega)]
    obtain ⟨egn, _, egInB⟩ := growFrom_InB pz.height pz.width i j pz.height g st.g 1 hInB
    -- the paint form of the expander grid, for the count
    obtain ⟨s1, s2, s3, s4⟩ := growFrom_spec pz.height pz.width i j pz.height g 1
    have hpaint : (expandPoint pz (g, bs) p).1 =
        paintSq g i j (growFrom pz.height pz.width i j pz.height g 1).2.1 := by
      rw [hexp]
      dsimp only
      funext a b
      rw [upd_apply, s3 a b]
      simp only [paintSq, inAnn, inSquare]
      split_ifs <;> first | rfl | omega
    refine ⟨?_, Or.inr ⟨(growFrom pz.height pz.width i j pz.height g 1).2.1, hge2,
      ?_, ?_, ?_, ?_⟩⟩
    · rw [hexp, hscg]
      exact InB_upd pz.height pz.width _ _ i j 2 egInB
    · rw [hexp]
    · exact hscs
    · rw [hsct, egn]
    · rw [hpaint]
      refine onesCount_paintSq pz.height pz.width g i j
        (growFrom pz.height pz.width i j pz.height g 1).2.1
        (s2 (by omega)).1 (s2 (by omega)).2 ?_
      intro a b hab
      simp only [inSquare] at hab
      by_cases hcorner : a = i ∧ b = j
      · rw [hcorner.1, hcorner.2]
        exact hE.1
      · refine s4 a b ?_
        simp only [inAnn, inSquare]
        omega
  · -- both skip
    obtain ⟨hscg, hscs, hsct⟩ := hneg (by
      intro hc
      exact hE ⟨by rw [hcorner_iff]; exact hc.1, hcr_iff.mpr hc.2⟩)
    have hexp : expandPoint pz (g, bs) p = (g, bs) := by
      rcases expandPoint_spec pz g bs p with h | ⟨n, hn2, hnH, hnW, hone, hpaint⟩
      · exact h
      · exfalso
        rw [hsij] at hone
        refine hE ⟨hone i j (by simp only [inSquare]; omega), ?_⟩
        rw [checkRing_one_iff]
        exact ⟨hone i (j + 1) (by simp only [inSquare]; omega),
               hone (i + 1) j (by simp only [inSquare]; omega),
               hone (i + 1) (j + 1) (by simp only [inSquare]; omega)⟩
    refine ⟨?_, Or.inl ⟨hexp, hscs, hsct⟩⟩
    rw [hexp, hscg]
    exact hInB


/-! ## C1: the optimized scorer agrees with the expander -/

theorem run_equiv (pz : Puzzle) :
    ∀ (sol : List Nat) (g : Grid) (bs : List (Nat × Nat × Nat)) (st : SState),
    (∀ p ∈ sol, ValidPoint pz p) → InB pz.height pz.width g st.g →
    InB pz.height pz.width (sol.foldl (expandPoint pz) (g, bs)).1
      (sol.foldl (scorePoint pz) st).g ∧
    (sol.foldl (scorePoint pz) st).score + bs.length =
      st.score + (sol.foldl (expandPoint pz) (g, bs)).2.length ∧
    (sol.foldl (scorePoint pz) st).tiles +
      onesCount pz.height pz.width (sol.foldl (expandPoint pz) (g, bs)).1 =
      st.tiles + onesCount pz.height pz.width g := by
  intro sol
  induction sol with
  | nil => intro g bs st _ h; exact ⟨h, rfl, rfl⟩
  | cons p rest ih =>
    intro g bs st hv hInB
    simp only [List.foldl_cons]
    obtain ⟨hInB2, hcase⟩ := step_equiv pz g bs st p (hv p (List.mem_cons_self p rest)) hInB
    have hrec := ih (expandPoint pz (g, bs) p).1 (expandPoint pz (g, bs) p).2
      (scorePoint pz st p) (fun q hq => hv q (List.mem_cons_of_mem p hq)) hInB2
    rw [Prod.mk.eta] at hrec
    obtain ⟨hr1, hr2, hr3⟩ := hrec
    rcases hcase with ⟨heq, hsc, hti⟩ | ⟨n, hn2, hboxes, hsc, hti, hones⟩
    · have hlen : (expandPoint pz (g, bs) p).2.length = bs.length := by rw [heq]
      have hgr : onesCount pz.height pz.width (expandPoint pz (g, bs) p).1 =
          onesCount pz.height pz.width g := by rw [heq]
      exact ⟨hr1, by omega, by omega⟩
    · have hlen : (expandPoint pz (g, bs) p).2.length = bs.length + 1 := by
        rw [hboxes, List.length_append, List.length_singleton]
      exact ⟨hr1, by omega, by omega⟩

/-- C1: on any 0/1 puzzle (with the packed-point width bound the
representation requires) and any permutation of its valid points, the
optimized unrolled scorer returns exactly the number of squares the
plain expander produces, where `puzzle_sum` is the interior-cell count. -/
theorem score_eq_expand_length (pz : Puzzle) (h01 : ZeroOne pz) (hW : pz.width ≤ 65536)
    (scratch : Grid) (sol : List Nat) (hperm : sol.Perm (get_valid_points pz)) :
    score_solution pz (interiorCount pz) scratch sol =
      ((expand_solution pz sol).length : Int) := by
  have hvalid : ∀ p ∈ sol, ValidPoint pz p := fun p hp =>
    valid_of_mem_get_valid_points pz h01 hW p (hperm.subset hp)
  have hInB0 : InB pz.height pz.width pz.cell (copy_2d pz scratch) := by
    intro a b ha hb
    simp only [copy_2d]
    rw [if_pos ⟨ha, hb⟩]
  obtain ⟨_, hsc, hti⟩ := run_equiv pz sol pz.cell []
    ⟨copy_2d pz scratch, 0, 0, copyAccs pz⟩ hvalid hInB0
  have hscore : score_solution pz (interiorCount pz) scratch sol =
      ((sol.foldl (scorePoint pz) ⟨copy_2d pz scratch, 0, 0, copyAccs pz⟩).score : Int) +
        (interiorCount pz : Int) -
        ((sol.foldl (scorePoint pz) ⟨copy_2d pz scratch, 0, 0, copyAccs pz⟩).tiles : Int) := rfl
  have hexplen : (expand_solution pz sol).length =
      (sol.foldl (expandPoint pz) (pz.cell, [])).2.length +
        onesCount pz.height pz.width (sol.foldl (expandPoint pz) (pz.cell, [])).1 := by
    unfold expand_solution
    rw [List.length_map, List.length_append, sweep_length]
  rw [hscore, hexplen]
  have hic : interiorCount pz = onesCount pz.height pz.width pz.cell := rfl
  simp only [List.length_nil] at hsc
  dsimp only at hsc hti
  omega

/-- Witness for C1: the 4×4 all-interior puzzle with its full row-major
valid-point permutation. -/
theorem score_eq_expand_length_witness :
    score_solution puzzle4x4 (interiorCount puzzle4x4) (fun _ _ => 0)
      (get_valid_points puzzle4x4) =
      ((expand_solution puzzle4x4 (get_valid_points puzzle4x4)).length : Int) :=
  score_eq_expand_length puzzle4x4
    (fun a b ha hb => Or.inr (if_pos ⟨ha, hb⟩))
    (by decide) (fun _ _ => 0) (get_valid_points puzzle4x4) (List.Perm.refl _)


/-! ## C2: the expander covers each interior cell exactly once -/

theorem covered_append_singleton (bs : List (Nat × Nat × Nat)) (t : Nat × Nat × Nat)
    (r c : Nat) :
    Covered (bs ++ [t]) r c ↔ Covered bs r c ∨ inSquare t.1 t.2.1 t.2.2 r c := by
  constructor
  · rintro ⟨u, hu, hins⟩
    rcases List.mem_append.mp hu with h | h
    · exact Or.inl ⟨u, h, hins⟩
    · rw [List.mem_singleton] at h
      subst h
      exact Or.inr hins
  · rintro (⟨u, hu, hins⟩ | hins)
    · exact ⟨u, List.mem_append_left _ hu, hins⟩
    · exact ⟨t, List.mem_append_right _ (List.mem_singleton_self t), hins⟩

/-- The running invariant of the expander: the recorded boxes are
pairwise disjoint in-bounds squares of interior cells of side ≥ 2,
covered cells are marked on the grid, and uncovered cells still carry
their puzzle value. -/
theorem expand_inv (pz : Puzzle) :
    ∀ (sol : List Nat) (g : Grid) (bs : List (Nat × Nat × Nat)),
    (∀ p ∈ sol, ValidPoint pz p) →
    List.Pairwise (fun t1 t2 : Nat × Nat × Nat => ∀ r c,
      inSquare t1.1 t1.2.1 t1.2.2 r c → inSquare t2.1 t2.2.1 t2.2.2 r c → False) bs →
    (∀ t ∈ bs, 2 ≤ t.2.2 ∧ t.1 + t.2.2 ≤ pz.height ∧ t.2.1 + t.2.2 ≤ pz.width ∧
      ∀ r c, inSquare t.1 t.2.1 t.2.2 r c → pz.cell r c = 1) →
    (∀ r c, Covered bs r c → g r c ≠ 1) →
    (∀ r c, ¬ Covered bs r c → g r c = pz.cell r c) →
    List.Pairwise (fun t1 t2 : Nat × Nat × Nat => ∀ r c,
      inSquare t1.1 t1.2.1 t1.2.2 r c → inSquare t2.1 t2.2.1 t2.2.2 r c → False)
      (sol.foldl (expandPoint pz) (g, bs)).2 ∧
    (∀ t ∈ (sol.foldl (expandPoint pz) (g, bs)).2,
      2 ≤ t.2.2 ∧ t.1 + t.2.2 ≤ pz.height ∧ t.2.1 + t.2.2 ≤ pz.width ∧
      ∀ r c, inSquare t.1 t.2.1 t.2.2 r c → pz.cell r c = 1) ∧
    (∀ r c, Covered (sol.foldl (expandPoint pz) (g, bs)).2 r c →
      (sol.foldl (expandPoint pz) (g, bs)).1 r c ≠ 1) ∧
    (∀ r c, ¬ Covered (sol.foldl (expandPoint pz) (g, bs)).2 r c →
      (sol.foldl (expandPoint pz) (g, bs)).1 r c = pz.cell r c) := by
  intro sol
  induction sol with
  | nil => intro g bs _ h1 h2 h3 h4; exact ⟨h1, h2, h3, h4⟩
  | cons p rest ih =>
    intro g bs hv h1 h2 h3 h4
    simp only [List.foldl_cons]
    rcases expandPoint_spec pz g bs p with heq | ⟨n, hn2, hnH, hnW, hone, heq⟩
    · rw [heq]
      exact ih g bs (fun q hq => hv q (List.mem_cons_of_mem p hq)) h1 h2 h3 h4
    · rw [heq]
      have hfresh : ∀ r c, inSquare (split_point p).1 (split_point p).2 n r c →
          ¬ Covered bs r c := by
        intro r c hin hcov
        exact h3 r c hcov (hone r c hin)
      refine ih (paintSq g (split_point p).1 (split_point p).2 n)
        (bs ++ [((split_point p).1, (split_point p).2, n)])
        (fun q hq => hv q (List.mem_cons_of_mem p hq)) ?_ ?_ ?_ ?_
      · rw [List.pairwise_append]
        refine ⟨h1, List.pairwise_singleton _ _, ?_⟩
        intro t1 ht1 t2 ht2 r c hin1 hin2
        rw [List.mem_singleton] at ht2
        subst ht2
        exact hfresh r c hin2 ⟨t1, ht1, hin1⟩
      · intro t ht
        rcases List.mem_append.mp ht with ht | ht
        · exact h2 t ht
        · rw [List.mem_singleton] at ht
          subst ht
          refine ⟨hn2, hnH, hnW, ?_⟩
          intro r c hin
          rw [← h4 r c (hfresh r c hin)]
          exact hone r c hin
      · intro r c hcov
        rcases (covered_append_singleton bs _ r c).mp hcov with hcov | hin
        · by_cases hin : inSquare (split_point p).1 (split_point p).2 n r c
          · exact absurd hcov (hfresh r c hin)
          · have : paintSq g (split_point p).1 (split_point p).2 n r c = g r c := by
              simp only [paintSq]
              rw [if_neg hin]
            rw [this]
            exact h3 r c hcov
        · simp only [paintSq]
          rw [if_pos hin]
          split_ifs <;> omega
      · intro r c hcov
        rw [covered_append_singleton] at hcov
        push_neg at hcov
        have : paintSq g (split_point p).1 (split_point p).2 n r c = g r c := by
          simp only [paintSq]
          rw [if_neg hcov.2]
        rw [this]
        exact h4 r c hcov.1

theorem mem_sweep (pz : Puzzle) (g : Grid) (t : Nat × Nat × Nat) :
    t ∈ sweep pz g ↔ ∃ a b, a < pz.height ∧ b < pz.width ∧ g a b = 1 ∧ t = (a, b, 1) := by
  simp only [sweep, List.mem_flatMap, List.mem_map, List.mem_filter, List.mem_range,
    beq_iff_eq]
  constructor
  · rintro ⟨a, ha, b, ⟨hb, hgb⟩, rfl⟩
    exact ⟨a, b, ha, hb, hgb, rfl⟩
  · rintro ⟨a, b, ha, hb, hgb, rfl⟩
    exact ⟨a, ha, b, ⟨hb, hgb⟩, rfl⟩

theorem flatMap_cells_pairwise (W : Nat) (q : Nat → Nat → Bool) :
    ∀ (L : List Nat), L.Nodup →
    List.Pairwise (fun t1 t2 : Nat × Nat × Nat => t1.1 ≠ t2.1 ∨ t1.2.1 ≠ t2.2.1)
      (L.flatMap (fun i => ((List.range W).filter (q i)).map (fun j => (i, j, 1)))) := by
  intro L
  induction L with
  | nil => intro _; exact List.Pairwise.nil
  | cons i L ih =>
    intro hnd
    rw [List.flatMap_cons, List.pairwise_append]
    refine ⟨?_, ih hnd.of_cons, ?_⟩
    · refine List.Pairwise.map _ ?_ ((List.nodup_range W).filter (q i))
      intro a b hab
      exact Or.inr (by simpa using hab)
    · intro t1 ht1 t2 ht2
      rw [List.mem_map] at ht1
      obtain ⟨j1, _, rfl⟩ := ht1
      rw [List.mem_flatMap] at ht2
      obtain ⟨i2, hi2, ht2⟩ := ht2
      rw [List.mem_map] at ht2
      obtain ⟨j2, _, rfl⟩ := ht2
      left
      have : i ∉ L := (List.nodup_cons.mp hnd).1
      simp only
      intro he
      rw [he] at this
      exact this hi2

theorem sweep_pairwise_cells (pz : Puzzle) (g : Grid) :
    List.Pairwise (fun t1 t2 : Nat × Nat × Nat => t1.1 ≠ t2.1 ∨ t1.2.1 ≠ t2.2.1)
      (sweep pz g) :=
  flatMap_cells_pairwise pz.width (fun i j => g i j == 1) (List.range pz.height)
    (List.nodup_range _)

theorem covers_map_iff (t : Nat × Nat × Nat) (r c : Nat) :
    covers ⟨t.2.1, t.1, t.2.2⟩ r c ↔ inSquare t.1 t.2.1 t.2.2 r c := by
  simp only [covers, inSquare]

/-- C2: on any 0/1 puzzle, for any permutation of its valid points, the
boxes returned by `expand_solution` are pairwise disjoint and their
union is exactly the set of interior cells. -/
theorem expander_exact_cover (pz : Puzzle) (h01 : ZeroOne pz) (hW : pz.width ≤ 65536)
    (sol : List Nat) (hperm : sol.Perm (get_valid_points pz)) :
    List.Pairwise BoxDisjoint (expand_solution pz sol) ∧
    (∀ r c, (∃ bx ∈ expand_solution pz sol, covers bx r c) ↔
      (r < pz.height ∧ c < pz.width ∧ pz.cell r c = 1)) := by
  have hvalid : ∀ p ∈ sol, ValidPoint pz p := fun p hp =>
    valid_of_mem_get_valid_points pz h01 hW p (hperm.subset hp)
  obtain ⟨I1, I2, I3, I4⟩ := expand_inv pz sol pz.cell [] hvalid
    List.Pairwise.nil
    (fun t ht => absurd ht (List.not_mem_nil t))
    (fun r c hcov => by
      rcases hcov with ⟨t, ht, _⟩
      exact (List.not_mem_nil t ht).elim)
    (fun _ _ _ => rfl)
  have hunf : expand_solution pz sol =
      ((sol.foldl (expandPoint pz) (pz.cell, [])).2 ++
        sweep pz (sol.foldl (expandPoint pz) (pz.cell, [])).1).map
        (fun b => ⟨b.2.1, b.1, b.2.2⟩) := rfl
  constructor
  · rw [hunf, List.pairwise_map, List.pairwise_append]
    refine ⟨?_, ?_, ?_⟩
    · refine I1.imp ?_
      intro t1 t2 h12 r c hc1 hc2
      exact h12 r c ((covers_map_iff t1 r c).mp hc1) ((covers_map_iff t2 r c).mp hc2)
    · refine (sweep_pairwise_cells pz _).imp_of_mem ?_
      intro t1 t2 h1mem h2mem hne r c hc1 hc2
      obtain ⟨a1, b1, _, _, _, rfl⟩ := (mem_sweep pz _ t1).mp h1mem
      obtain ⟨a2, b2, _, _, _, rfl⟩ := (mem_sweep pz _ t2).mp h2mem
      rw [covers_map_iff] at hc1 hc2
      simp only [inSquare] at hc1 hc2
      dsimp only at hne
      omega
    · intro t1 ht1 t2 ht2 r c hc1 hc2
      obtain ⟨a2, b2, ha2, hb2, hg2, rfl⟩ := (mem_sweep pz _ t2).mp ht2
      rw [covers_map_iff] at hc1 hc2
      simp only [inSquare] at hc2
      have hra : r = a2 ∧ c = b2 := by omega
      refine I3 r c ⟨t1, ht1, (covers_map_iff t1 r c).mp ?_⟩ ?_
      · exact (covers_map_iff t1 r c).mpr hc1
      · rw [hra.1, hra.2]
        exact hg2
  · intro r c
    rw [hunf]
    constructor
    · rintro ⟨bx, hbx, hcov⟩
      rw [List.mem_map] at hbx
      obtain ⟨t, ht, rfl⟩ := hbx
      rw [covers_map_iff] at hcov
      rcases List.mem_append.mp ht with ht | ht
      · obtain ⟨_, hHt, hWt, hcells⟩ := I2 t ht
        refine ⟨?_, ?_, hcells r c hcov⟩
        · simp only [inSquare] at hcov
          omega
        · simp only [inSquare] at hcov
          omega
      · obtain ⟨a, b, ha, hb, hg, rfl⟩ := (mem_sweep pz _ t).mp ht
        simp only [inSquare] at hcov
        obtain ⟨rfl, rfl⟩ : r = a ∧ c = b := by omega
        have hnc : ¬ Covered (sol.foldl (expandPoint pz) (pz.cell, [])).2 r c :=
          fun hcov2 => I3 r c hcov2 hg
        exact ⟨ha, hb, ((I4 r c hnc).symm.trans hg)⟩
    · rintro ⟨hr, hc, hcell⟩
      by_cases hcov : Covered (sol.foldl (expandPoint pz) (pz.cell, [])).2 r c
      · obtain ⟨t, ht, hin⟩ := hcov
        exact ⟨⟨t.2.1, t.1, t.2.2⟩, List.mem_map_of_mem _ (List.mem_append_left _ ht),
          (covers_map_iff t r c).mpr hin⟩
      · have hg : (sol.foldl (expandPoint pz) (pz.cell, [])).1 r c = 1 := by
          rw [I4 r c hcov]
          exact hcell
        have hts : (r, c, 1) ∈ sweep pz (sol.foldl (expandPoint pz) (pz.cell, [])).1 :=
          (mem_sweep pz _ _).mpr ⟨r, c, hr, hc, hg, rfl⟩
        refine ⟨⟨c, r, 1⟩, List.mem_map_of_mem _ (List.mem_append_right _ hts), ?_⟩
        simp only [covers]
        omega

/-- Witness for C2: the 4×4 all-interior puzzle with its full row-major
valid-point permutation, evaluated at cell `(2, 2)`. -/
theorem expander_exact_cover_witness :
    List.Pairwise BoxDisjoint (expand_solution puzzle4x4 (get_valid_points puzzle4x4)) ∧
    ((∃ bx ∈ expand_solution puzzle4x4 (get_valid_points puzzle4x4), covers bx 2 2) ↔
      (2 < puzzle4x4.height ∧ 2 < puzzle4x4.width ∧ puzzle4x4.cell 2 2 = 1)) := by
  have h := expander_exact_cover puzzle4x4
    (fun a b ha hb => Or.inr (if_pos ⟨ha, hb⟩))
    (by decide) (get_valid_points puzzle4x4) (List.Perm.refl _)
  exact ⟨h.1, h.2 2 2⟩


/-! ## C3/C10: quickselect — swap helpers -/

theorem cons_set_perm {α : Type _} (d x : α) :
    ∀ (xs : List α) (m : Nat), m < xs.length →
    (xs.getD m d :: xs.set m x).Perm (x :: xs) := by
  intro xs
  induction xs with
  | nil => intro m hm; exact absurd hm (Nat.not_lt_zero m)
  | cons y ys ih =>
    intro m hm
    cases m with
    | zero =>
      simp only [List.getD_cons_zero, List.set_cons_zero]
      exact List.Perm.swap x y ys
    | succ k =>
      simp only [List.getD_cons_succ, List.set_cons_succ, List.length_cons] at *
      exact ((List.Perm.swap y _ _).trans
        ((ih k (by omega)).cons y)).trans (List.Perm.swap x y ys)

theorem set_set_swap_perm {α : Type _} (d : α) :
    ∀ (l : List α) (a b : Nat), a < l.length → b < l.length →
    ((l.set a (l.getD b d)).set b (l.getD a d)).Perm l := by
  intro l
  induction l with
  | nil => intro a b ha _; exact absurd ha (Nat.not_lt_zero a)
  | cons x xs ih =>
    intro a b ha hb
    cases a with
    | zero =>
      cases b with
      | zero =>
        simp only [List.getD_cons_zero, List.set_cons_zero]
        exact List.Perm.refl _
      | succ m =>
        simp only [List.getD_cons_zero, List.getD_cons_succ, List.set_cons_zero,
          List.set_cons_succ, List.length_cons] at *
        exact cons_set_perm d x xs m (by omega)
    | succ n =>
      cases b with
      | zero =>
        simp only [List.getD_cons_zero, List.getD_cons_succ, List.set_cons_zero,
          List.set_cons_succ, List.length_cons] at *
        exact cons_set_perm d x xs n (by omega)
      | succ m =>
        simp only [List.getD_cons_succ, List.set_cons_succ, List.length_cons] at *
        exact (ih n m (by omega) (by omega)).cons x

theorem swap_1d_eq (a b : Row) (h : b.length = a.length) : swap_1d a b = (b, a) := by
  have h1 : (List.range a.length).map (fun x => b.getD x 0) = b := by
    rw [← h]
    exact map_getD_range b
  have h2 : (List.range a.length).map (fun x => a.getD x 0) = a := map_getD_range a
  have h3 : b.drop a.length = [] := by
    rw [← h]
    exact List.drop_length b
  simp only [swap_1d]
  rw [h1, h2, h3, List.append_nil]

theorem swapRows_eq (pop : Pop) (L a b : Nat) (hrect : ∀ r ∈ pop, r.length = L)
    (ha : a < pop.length) (hb : b < pop.length) :
    swapRows pop a b = (pop.set a (rowAt pop b)).set b (rowAt pop a) := by
  simp only [swapRows]
  rw [swap_1d_eq _ _ (by
    rw [hrect _ (rowAt_mem pop b hb), hrect _ (rowAt_mem pop a ha)])]

theorem swapRows_length (pop : Pop) (a b : Nat) :
    (swapRows pop a b).length = pop.length := by
  simp [swapRows]

theorem rowAt_swapRows (pop : Pop) (L a b x : Nat) (hrect : ∀ r ∈ pop, r.length = L)
    (ha : a < pop.length) (hb : b < pop.length) :
    rowAt (swapRows pop a b) x =
      if x = b then rowAt pop a else if x = a then rowAt pop b else rowAt pop x := by
  rw [swapRows_eq pop L a b hrect ha hb, rowAt_set, rowAt_set, List.length_set]
  by_cases hxb : x = b
  · rw [if_pos ⟨hxb.symm, hb⟩, if_pos hxb]
  · rw [if_neg (fun hc => hxb hc.1.symm), if_neg hxb]
    by_cases hxa : x = a
    · rw [if_pos ⟨hxa.symm, ha⟩, if_pos hxa]
    · rw [if_neg (fun hc => hxa hc.1.symm), if_neg hxa]

theorem swapRows_perm (pop : Pop) (L a b : Nat) (hrect : ∀ r ∈ pop, r.length = L)
    (ha : a < pop.length) (hb : b < pop.length) :
    (swapRows pop a b).Perm pop := by
  rw [swapRows_eq pop L a b hrect ha hb]
  exact set_set_swap_perm [] pop a b ha hb

theorem scoreAt_congr {p q : Pop} {x y : Nat} (h : rowAt p x = rowAt q y) :
    scoreAt p x = scoreAt q y := by
  unfold scoreAt
  rw [h]

/-! ## C3/C10: quickselect — inner scan facts -/

theorem scanLow_facts (pop : Pop) (pivot high : Nat) :
    ∀ (fuel low : Nat),
    low ≤ scanLow pop pivot high fuel low ∧
    (∀ x, low ≤ x → x < scanLow pop pivot high fuel low → scoreAt pop x ≤ pivot) ∧
    (high + 1 ≤ fuel + low →
      high < scanLow pop pivot high fuel low ∨
        pivot < scoreAt pop (scanLow pop pivot high fuel low)) := by
  intro fuel
  induction fuel with
  | zero =>
    intro low
    simp only [scanLow]
    exact ⟨le_refl _, fun x hx1 hx2 => absurd hx2 (by omega),
      fun h => Or.inl (by omega)⟩
  | succ fuel ih =>
    intro low
    simp only [scanLow]
    by_cases hg : low ≤ high ∧ scoreAt pop low ≤ pivot
    · rw [if_pos hg]
      obtain ⟨h1, h2, h3⟩ := ih (low + 1)
      refine ⟨by omega, ?_, ?_⟩
      · intro x hx1 hx2
        by_cases hx : x = low
        · rw [hx]
          exact hg.2
        · exact h2 x (by omega) hx2
      · intro hf
        exact h3 (by omega)
    · rw [if_neg hg]
      push_neg at hg
      refine ⟨le_refl _, fun x hx1 hx2 => absurd hx2 (by omega), ?_⟩
      intro _
      rcases Nat.lt_or_ge high low with h | h
      · exact Or.inl h
      · exact Or.inr (hg h)

theorem scanHigh_facts (pop : Pop) (pivot low : Nat) :
    ∀ (fuel high : Nat),
    scanHigh pop pivot low fuel high ≤ high ∧
    (∀ x, scanHigh pop pivot low fuel high < x → x ≤ high → pivot ≤ scoreAt pop x) ∧
    (1 ≤ low → high + 1 ≤ fuel + low →
      scanHigh pop pivot low fuel high < low ∨
        scoreAt pop (scanHigh pop pivot low fuel high) < pivot) ∧
    (∀ f, f ≤ high → f + 1 ≤ low → f ≤ scanHigh pop pivot low fuel high) := by
  intro fuel
  induction fuel with
  | zero =>
    intro high
    simp only [scanHigh]
    exact ⟨le_refl _, fun x hx1 hx2 => absurd hx1 (by omega),
      fun _ hf => Or.inl (by omega), fun f hf _ => hf⟩
  | succ fuel ih =>
    intro high
    simp only [scanHigh]
    by_cases hg : pivot ≤ scoreAt pop high ∧ low ≤ high
    · rw [if_pos hg]
      obtain ⟨h1, h2, h3, h4⟩ := ih (high - 1)
      refine ⟨by omega, ?_, ?_, ?_⟩
      · intro x hx1 hx2
        by_cases hx : x = high
        · rw [hx]
          exact hg.1
        · exact h2 x hx1 (by omega)
      · intro hlow hf
        exact h3 hlow (by omega)
      · intro f hf hfl
        exact h4 f (by omega) hfl
    · rw [if_neg hg]
      push_neg at hg
      refine ⟨le_refl _, fun x hx1 hx2 => absurd hx1 (by omega), ?_,
        fun f hf _ => hf⟩
      intro _ _
      rcases Nat.lt_or_ge (scoreAt pop high) pivot with h | h
      · exact Or.inr h
      · exact Or.inl (hg h)


/-! ## C3/C10: quickselect — Hoare partition correctness -/

theorem partLoop_spec (pivot first last L : Nat) :
    ∀ (fuel : Nat) (pop : Pop) (low high : Nat) (pop2 : Pop) (pos : Nat),
    (∀ r ∈ pop, r.length = L) →
    first + 1 ≤ low → first ≤ high → high ≤ last → last < pop.length →
    (∀ x, first ≤ x → x < low → scoreAt pop x ≤ pivot) →
    (∀ x, high < x → x ≤ last → pivot ≤ scoreAt pop x) →
    partLoop pivot fuel pop low high = some (pop2, pos) →
    pop2.Perm pop ∧ first ≤ pos ∧ pos ≤ last ∧
    (∀ x, first ≤ x → x ≤ pos → scoreAt pop2 x ≤ pivot) ∧
    (∀ x, pos < x → x ≤ last → pivot ≤ scoreAt pop2 x) ∧
    (∀ x, x ≤ first ∨ last < x → rowAt pop2 x = rowAt pop x) := by
  intro fuel
  induction fuel with
  | zero =>
    intro pop low high pop2 pos _ _ _ _ _ _ _ hcall
    exact absurd hcall (by simp [partLoop])
  | succ fuel ih =>
    intro pop low high pop2 pos hrect hlow hfh hhl hlen hinvL hinvH hcall
    simp only [partLoop] at hcall
    obtain ⟨sL1, sL2, sL3⟩ := scanLow_facts pop pivot high (high + 2) low
    obtain ⟨sH1, sH2, sH3, sH4⟩ :=
      scanHigh_facts pop pivot (scanLow pop pivot high (high + 2) low) (high + 1) high
    set low' := scanLow pop pivot high (high + 2) low with hlow'
    set high' := scanHigh pop pivot low' (high + 1) high with hhigh'
    have hCL : ∀ x, first ≤ x → x < low' → scoreAt pop x ≤ pivot := by
      intro x hx1 hx2
      rcases Nat.lt_or_ge x low with h | h
      · exact hinvL x hx1 h
      · exact sL2 x h hx2
    have hCH : ∀ x, high' < x → x ≤ last → pivot ≤ scoreAt pop x := by
      intro x hx1 hx2
      rcases le_or_lt x high with h | h
      · exact sH2 x hx1 h
      · exact hinvH x h hx2
    have hHf : first ≤ high' := sH4 first hfh (by omega)
    by_cases hcross : high' < low'
    · rw [if_pos hcross] at hcall
      simp only [Option.some.injEq, Prod.mk.injEq] at hcall
      obtain ⟨rfl, rfl⟩ := hcall
      refine ⟨List.Perm.refl _, hHf, by omega, ?_, ?_, fun x _ => rfl⟩
      · intro x hx1 hx2
        exact hCL x hx1 (by omega)
      · intro x hx1 hx2
        exact hCH x hx1 hx2
    · rw [if_neg hcross] at hcall
      have hle : low' ≤ high' := Nat.le_of_not_lt hcross
      have hsl : pivot < scoreAt pop low' := by
        rcases sL3 (by omega) with h | h
        · omega
        · exact h
      have hsh : scoreAt pop high' < pivot := by
        rcases sH3 (by omega) (by omega) with h | h
        · omega
        · exact h
      have hne : low' < high' := by
        rcases Nat.lt_or_ge low' high' with h | h
        · exact h
        · have heq : low' = high' := by omega
          rw [heq] at hsl
          omega
      have hl'len : low' < pop.length := by omega
      have hh'len : high' < pop.length := by omega
      have hperm2 := swapRows_perm pop L low' high' hrect hl'len hh'len
      have hrect2 : ∀ r ∈ swapRows pop low' high', r.length = L :=
        fun r hr => hrect r (hperm2.subset hr)
      have hrow2 : ∀ x, x ≠ low' → x ≠ high' →
          rowAt (swapRows pop low' high') x = rowAt pop x := by
        intro x hx1 hx2
        rw [rowAt_swapRows pop L low' high' x hrect hl'len hh'len, if_neg hx2, if_neg hx1]
      obtain ⟨P, Hf, Hl, CLE, CGE, OUT⟩ := ih (swapRows pop low' high') low' high' pop2 pos
        hrect2 (by omega) hHf (by omega)
        (by rw [swapRows_length]; exact hlen)
        (by
          intro x hx1 hx2
          rw [scoreAt_congr (hrow2 x (by omega) (by omega))]
          exact hCL x hx1 hx2)
        (by
          intro x hx1 hx2
          rw [scoreAt_congr (hrow2 x (by omega) (by omega))]
          exact hCH x hx1 hx2)
        hcall
      refine ⟨P.trans hperm2, Hf, Hl, CLE, CGE, ?_⟩
      intro x hx
      rw [OUT x hx]
      rcases hx with hx | hx
      · exact hrow2 x (by omega) (by omega)
      · exact hrow2 x (by omega) (by omega)

theorem partition_population_spec (pop : Pop) (first last L : Nat)
    (hrect : ∀ r ∈ pop, r.length = L) (hfl : first ≤ last) (hlen : last < pop.length)
    (pop2 : Pop) (pos : Nat)
    (hcall : partition_population pop first last = some (pop2, pos)) :
    pop2.Perm pop ∧ first ≤ pos ∧ pos ≤ last ∧
    (∀ x, first ≤ x → x ≤ pos → scoreAt pop2 x ≤ scoreAt pop2 pos) ∧
    (∀ x, pos ≤ x → x ≤ last → scoreAt pop2 pos ≤ scoreAt pop2 x) ∧
    (∀ x, x < first ∨ last < x → rowAt pop2 x = rowAt pop x) := by
  simp only [partition_population] at hcall
  set pivot_idx := (last - first) / 2 + first with hpi
  set pivot := scoreAt pop pivot_idx with hpiv
  set pop1 := swapRows pop pivot_idx first with hpop1
  have hpib : pivot_idx ≤ last := by omega
  have hpil : pivot_idx < pop.length := by omega
  have hfirstl : first < pop.length := by omega
  cases hml : partLoop pivot (last + 2) pop1 (first + 1) last with
  | none =>
    rw [hml] at hcall
    exact absurd hcall (by simp)
  | some pr =>
    obtain ⟨popm, high⟩ := pr
    rw [hml] at hcall
    simp only [Option.some.injEq, Prod.mk.injEq] at hcall
    obtain ⟨rfl, rfl⟩ := hcall
    have hperm1 := swapRows_perm pop L pivot_idx first hrect hpil hfirstl
    have hrect1 : ∀ r ∈ pop1, r.length = L := fun r hr => hrect r (hperm1.subset hr)
    have hlen1 : pop1.length = pop.length := by
      rw [hpop1, swapRows_length]
    have hs1 : rowAt pop1 first = rowAt pop pivot_idx := by
      rw [hpop1, rowAt_swapRows pop L pivot_idx first first hrect hpil hfirstl, if_pos rfl]
    have hsc1 : scoreAt pop1 first = pivot := (scoreAt_congr hs1).trans hpiv.symm
    obtain ⟨P, Hf, Hl, CLE, CGE, OUT⟩ := partLoop_spec pivot first last L (last + 2)
      pop1 (first + 1) last popm high hrect1 (le_refl _) hfl (le_refl _)
      (by rw [hlen1]; exact hlen)
      (by
        intro x hx1 hx2
        have hxf : x = first := by omega
        rw [hxf]
        exact le_of_eq hsc1)
      (fun x hx1 hx2 => absurd hx1 (by omega))
      hml
    have hlen2 : popm.length = pop.length := by
      rw [P.length_eq, hlen1]
    have hrect2 : ∀ r ∈ popm, r.length = L := fun r hr => hrect1 r (P.subset hr)
    have hfl2 : first < popm.length := by omega
    have hhl2 : high < popm.length := by omega
    have hperm3 := swapRows_perm popm L first high hrect2 hfl2 hhl2
    have hrow : ∀ x, rowAt (swapRows popm first high) x =
        if x = high then rowAt popm first else
          if x = first then rowAt popm high else rowAt popm x :=
      fun x => rowAt_swapRows popm L first high x hrect2 hfl2 hhl2
    have hsc_pos : scoreAt (swapRows popm first high) high = pivot := by
      have hstep : rowAt (swapRows popm first high) high = rowAt popm first := by
        rw [hrow high, if_pos rfl]
      rw [scoreAt_congr hstep, scoreAt_congr (OUT first (Or.inl (le_refl _)))]
      exact hsc1
    refine ⟨hperm3.trans (P.trans hperm1), Hf, Hl, ?_, ?_, ?_⟩
    · intro x hx1 hx2
      rw [hsc_pos]
      by_cases hxh : x = high
      · rw [hxh]
        rw [hsc_pos]
      · by_cases hxf : x = first
        · rw [scoreAt_congr (show rowAt (swapRows popm first high) x = rowAt popm high by
            rw [hrow x, if_neg hxh, if_pos hxf])]
          exact CLE high Hf (le_refl _)
        · rw [scoreAt_congr (show rowAt (swapRows popm first high) x = rowAt popm x by
            rw [hrow x, if_neg hxh, if_neg hxf])]
          exact CLE x hx1 hx2
    · intro x hx1 hx2
      rw [hsc_pos]
      by_cases hxh : x = high
      · rw [hxh]
        rw [hsc_pos]
      · have hxf : x ≠ first := by omega
        rw [scoreAt_congr (show rowAt (swapRows popm first high) x = rowAt popm x by
          rw [hrow x, if_neg hxh, if_neg hxf])]
        exact CGE x (by omega) hx2
    · intro x hx
      rcases hx with hx | hx
      · have hxh : x ≠ high := by omega
        have hxf : x ≠ first := by omega
        rw [hrow x, if_neg hxh, if_neg hxf, OUT x (Or.inl (by omega)), hpop1,
          rowAt_swapRows pop L pivot_idx first x hrect hpil hfirstl, if_neg hxf,
          if_neg (show x ≠ pivot_idx by omega)]
      · have hxh : x ≠ high := by omega
        have hxf : x ≠ first := by omega
        rw [hrow x, if_neg hxh, if_neg hxf, OUT x (Or.inr hx), hpop1,
          rowAt_swapRows pop L pivot_idx first x hrect hpil hfirstl, if_neg hxf,
          if_neg (show x ≠ pivot_idx by omega)]


/-! ## C3/C10: quickselect — window multiset preservation -/

theorem map_getD_range_gen {α : Type _} (d : α) (l : List α) :
    (List.range l.length).map (fun x => l.getD x d) = l := by
  induction l with
  | nil => simp
  | cons a t ih =>
    rw [List.length_cons, List.range_succ_eq_map, List.map_cons, List.map_map]
    have h : ∀ x ∈ List.range t.length,
        ((fun x => (a :: t).getD x d) ∘ (· + 1)) x = t.getD x d := by
      intro x _
      simp [List.getD_cons_succ]
    rw [List.map_congr_left h, ih]
    simp

theorem map_rowAt_range (pop : Pop) :
    (List.range pop.length).map (fun k => rowAt pop k) = pop := by
  unfold rowAt
  exact map_getD_range_gen [] pop

theorem window_perm (pop pop2 : Pop) (first last : Nat)
    (hP : pop2.Perm pop) (hlast : last < pop.length)
    (hOUT : ∀ x, x < first ∨ last < x → rowAt pop2 x = rowAt pop x) :
    ((List.range' first (last + 1 - first)).map (fun k => rowAt pop2 k)).Perm
      ((List.range' first (last + 1 - first)).map (fun k => rowAt pop k)) := by
  rcases Nat.lt_or_ge last first with hfl | hfl
  · have h0 : last + 1 - first = 0 := by omega
    rw [h0]
    exact List.Perm.refl _
  · have hw : first + (last + 1 - first) ≤ pop.length := by omega
    have hsplit := range_split pop.length first (last + 1 - first) hw
    have hdecomp : ∀ (q : Pop), q.length = pop.length →
        ((List.range' 0 first).map (fun k => rowAt q k) ++
         (List.range' first (last + 1 - first)).map (fun k => rowAt q k)) ++
        (List.range' (first + (last + 1 - first))
            (pop.length - first - (last + 1 - first))).map (fun k => rowAt q k) = q := by
      intro q hq
      rw [← List.map_append, ← List.map_append, ← hsplit, ← hq, map_rowAt_range]
    have hA : (List.range' 0 first).map (fun k => rowAt pop2 k) =
        (List.range' 0 first).map (fun k => rowAt pop k) := by
      apply List.map_congr_left
      intro x hx
      rw [List.mem_range'_1] at hx
      exact hOUT x (Or.inl (by omega))
    have hS : (List.range' (first + (last + 1 - first))
          (pop.length - first - (last + 1 - first))).map (fun k => rowAt pop2 k) =
        (List.range' (first + (last + 1 - first))
          (pop.length - first - (last + 1 - first))).map (fun k => rowAt pop k) := by
      apply List.map_congr_left
      intro x hx
      rw [List.mem_range'_1] at hx
      exact hOUT x (Or.inr (by omega))
    have e1 : ((List.range' 0 first).map (fun k => rowAt pop k) ++
         (List.range' first (last + 1 - first)).map (fun k => rowAt pop2 k)) ++
        (List.range' (first + (last + 1 - first))
            (pop.length - first - (last + 1 - first))).map (fun k => rowAt pop k) = pop2 := by
      rw [← hA, ← hS]
      exact hdecomp pop2 hP.length_eq
    have e2 : ((List.range' 0 first).map (fun k => rowAt pop k) ++
         (List.range' first (last + 1 - first)).map (fun k => rowAt pop k)) ++
        (List.range' (first + (last + 1 - first))
            (pop.length - first - (last + 1 - first))).map (fun k => rowAt pop k) = pop :=
      hdecomp pop rfl
    have hP2 : (((List.range' 0 first).map (fun k => rowAt pop k) ++
         (List.range' first (last + 1 - first)).map (fun k => rowAt pop2 k)) ++
        (List.range' (first + (last + 1 - first))
            (pop.length - first - (last + 1 - first))).map (fun k => rowAt pop k)).Perm
        (((List.range' 0 first).map (fun k => rowAt pop k) ++
         (List.range' first (last + 1 - first)).map (fun k => rowAt pop k)) ++
        (List.range' (first + (last + 1 - first))
            (pop.length - first - (last + 1 - first))).map (fun k => rowAt pop k)) := by
      rw [e1, e2]
      exact hP
    exact (List.perm_append_left_iff _).mp ((List.perm_append_right_iff _).mp hP2)

theorem window_mem (pop pop2 : Pop) (first last : Nat)
    (hP : pop2.Perm pop) (hlast : last < pop.length)
    (hOUT : ∀ x, x < first ∨ last < x → rowAt pop2 x = rowAt pop x) :
    ∀ y, first ≤ y → y ≤ last →
    ∃ z, first ≤ z ∧ z ≤ last ∧ rowAt pop2 y = rowAt pop z := by
  intro y hy1 hy2
  have hw := window_perm pop pop2 first last hP hlast hOUT
  have hmem : rowAt pop2 y ∈ (List.range' first (last + 1 - first)).map
      (fun k => rowAt pop2 k) :=
    List.mem_map_of_mem _ (by rw [List.mem_range'_1]; omega)
  have hmem2 := hw.subset hmem
  rw [List.mem_map] at hmem2
  obtain ⟨z, hz, heq⟩ := hmem2
  rw [List.mem_range'_1] at hz
  exact ⟨z, by omega, by omega, heq.symm⟩

/-! ## C3/C10: the divide loop -/

theorem divideLoop_spec (divide L N : Nat) (hdN : divide < N) :
    ∀ (fuel : Nat) (pop : Pop) (first last split : Nat) (pop2 : Pop),
    pop.length = N → (∀ r ∈ pop, r.length = L) →
    first ≤ divide → divide ≤ last → last < N →
    (∀ x y, x < first → first ≤ y → y < N → scoreAt pop x ≤ scoreAt pop y) →
    (∀ x y, x ≤ last → last < y → y < N → scoreAt pop x ≤ scoreAt pop y) →
    (split = divide →
      ∀ x y, x < divide → divide ≤ y → y < N → scoreAt pop x ≤ scoreAt pop y) →
    divideLoop divide fuel pop first last split = some pop2 →
    pop2.Perm pop ∧
    (∀ x y, x < divide → divide ≤ y → y < N → scoreAt pop2 x ≤ scoreAt pop2 y) := by
  intro fuel
  induction fuel with
  | zero =>
    intro pop first last split pop2 _ _ _ _ _ _ _ _ hcall
    exact absurd hcall (by simp [divideLoop])
  | succ fuel ih =>
    intro pop first last split pop2 hN hrect hfd hdl hlN hA hB hS hcall
    simp only [divideLoop] at hcall
    by_cases hg : first < last ∧ split ≠ divide
    · rw [if_pos hg] at hcall
      cases hpc : partition_population pop first last with
      | none =>
        rw [hpc] at hcall
        exact absurd hcall (by simp)
      | some pr =>
        obtain ⟨popp, split'⟩ := pr
        rw [hpc] at hcall
        dsimp only at hcall
        obtain ⟨P, Hf, Hl, CLE, CGE, OUT⟩ := partition_population_spec pop first last L
          hrect (by omega) (by omega) popp split' hpc
        have hNlen : popp.length = N := by
          rw [P.length_eq, hN]
        have hrectp : ∀ r ∈ popp, r.length = L := fun r hr => hrect r (P.subset hr)
        have hwin := window_mem pop popp first last P (by omega) OUT
        have hA2 : ∀ x y, x < first → first ≤ y → y < N →
            scoreAt popp x ≤ scoreAt popp y := by
          intro x y hx hy hyN
          rw [scoreAt_congr (OUT x (Or.inl hx))]
          rcases le_or_lt y last with hyl | hyl
          · obtain ⟨z, hz1, hz2, hz3⟩ := hwin y hy hyl
            rw [scoreAt_congr hz3]
            exact hA x z hx hz1 (by omega)
          · rw [scoreAt_congr (OUT y (Or.inr hyl))]
            exact hA x y hx hy hyN
        have hB2 : ∀ x y, x ≤ last → last < y → y < N →
            scoreAt popp x ≤ scoreAt popp y := by
          intro x y hx hy hyN
          rw [scoreAt_congr (OUT y (Or.inr hy))]
          rcases Nat.lt_or_ge x first with hxf | hxf
          · rw [scoreAt_congr (OUT x (Or.inl hxf))]
            exact hB x y hx hy hyN
          · obtain ⟨z, hz1, hz2, hz3⟩ := hwin x hxf hx
            rw [scoreAt_congr hz3]
            exact hB z y hz2 hy hyN
        by_cases hlt : divide < split'
        · rw [if_pos hlt] at hcall
          obtain ⟨P2, G⟩ := ih popp first (split' - 1) split' pop2 hNlen hrectp hfd
            (by omega) (by omega) hA2
            (by
              intro x y hx hy hyN
              rcases le_or_lt y last with hyl | hyl
              · have hge := CGE y (by omega) hyl
                rcases Nat.lt_or_ge x first with hxf | hxf
                · exact le_trans (hA2 x split' hxf (by omega) (by omega)) hge
                · exact le_trans (CLE x hxf (by omega)) hge
              · exact hB2 x y (by omega) hyl hyN)
            (fun heq => absurd heq (by omega))
            hcall
          exact ⟨P2.trans P, G⟩
        · rw [if_neg hlt] at hcall
          by_cases hgt : split' < divide
          · rw [if_pos hgt] at hcall
            obtain ⟨P2, G⟩ := ih popp (split' + 1) last split' pop2 hNlen hrectp
              (by omega) hdl hlN
              (by
                intro x y hx hy hyN
                rcases Nat.lt_or_ge x first with hxf | hxf
                · exact hA2 x y hxf (by omega) hyN
                · have hle := CLE x hxf (by omega)
                  rcases le_or_lt y last with hyl | hyl
                  · exact le_trans hle (CGE y (by omega) hyl)
                  · obtain ⟨z, hz1, hz2, hz3⟩ := hwin x hxf (by omega)
                    rw [scoreAt_congr hz3, scoreAt_congr (OUT y (Or.inr hyl))]
                    exact hB z y hz2 hyl hyN)
              hB2
              (fun heq => absurd heq (by omega))
              hcall
            exact ⟨P2.trans P, G⟩
          · rw [if_neg hgt] at hcall
            have heq : split' = divide := by omega
            obtain ⟨P2, G⟩ := ih popp first last split' pop2 hNlen hrectp hfd hdl hlN
              hA2 hB2
              (by
                intro _ x y hx hy hyN
                rcases Nat.lt_or_ge x first with hxf | hxf
                · exact hA2 x y hxf (by omega) hyN
                · have hle := CLE x hxf (by omega)
                  rcases le_or_lt y last with hyl | hyl
                  · exact le_trans hle (CGE y (by omega) hyl)
                  · obtain ⟨z, hz1, hz2, hz3⟩ := hwin x hxf (by omega)
                    rw [scoreAt_congr hz3, scoreAt_congr (OUT y (Or.inr hyl))]
                    exact hB z y hz2 hyl hyN)
              hcall
            exact ⟨P2.trans P, G⟩
    · rw [if_neg hg] at hcall
      obtain rfl := Option.some.inj hcall
      refine ⟨List.Perm.refl _, ?_⟩
      by_cases hsd : split = divide
      · exact hS hsd
      · intro x y hx hy hyN
        have hfl2 : ¬ first < last := fun hc => hg ⟨hc, hsd⟩
        exact hA x y (by omega) (by omega) hyN

theorem divideLoop_rows_perm (divide L : Nat) :
    ∀ (fuel : Nat) (pop : Pop) (first last split : Nat) (pop2 : Pop),
    (∀ r ∈ pop, r.length = L) → last < pop.length →
    divideLoop divide fuel pop first last split = some pop2 →
    pop2.Perm pop := by
  intro fuel
  induction fuel with
  | zero =>
    intro pop first last split pop2 _ _ hcall
    exact absurd hcall (by simp [divideLoop])
  | succ fuel ih =>
    intro pop first last split pop2 hrect hlast hcall
    simp only [divideLoop] at hcall
    by_cases hg : first < last ∧ split ≠ divide
    · rw [if_pos hg] at hcall
      cases hpc : partition_population pop first last with
      | none =>
        rw [hpc] at hcall
        exact absurd hcall (by simp)
      | some pr =>
        obtain ⟨popp, split'⟩ := pr
        rw [hpc] at hcall
        dsimp only at hcall
        obtain ⟨P, Hf, Hl, _, _, _⟩ := partition_population_spec pop first last L
          hrect (by omega) hlast popp split' hpc
        have hrectp : ∀ r ∈ popp, r.length = L := fun r hr => hrect r (P.subset hr)
        have hlenp : popp.length = pop.length := P.length_eq
        by_cases h1 : divide < split'
        · rw [if_pos h1] at hcall
          exact (ih popp first (split' - 1) split' pop2 hrectp (by omega) hcall).trans P
        · rw [if_neg h1] at hcall
          by_cases h2 : split' < divide
          · rw [if_pos h2] at hcall
            exact (ih popp (split' + 1) last split' pop2 hrectp (by omega) hcall).trans P
          · rw [if_neg h2] at hcall
            exact (ih popp first last split' pop2 hrectp (by omega) hcall).trans P
    · rw [if_neg hg] at hcall
      obtain rfl := Option.some.inj hcall
      exact List.Perm.refl _

/-- C3: for every rectangular population and every divide index `k` below the
row count, when `divide_population(pop, k)` terminates, every row with index
below `k` has score at most the score of every row with index at or above
`k`. -/
theorem divide_population_spec (pop : Pop) (k L : Nat)
    (hrect : ∀ r ∈ pop, r.length = L) (hk : k < pop.length)
    (pop2 : Pop) (hcall : divide_population pop k = some pop2) :
    ∀ x y, x < k → k ≤ y → y < pop.length → scoreAt pop2 x ≤ scoreAt pop2 y := by
  obtain ⟨P, G⟩ := divideLoop_spec k L pop.length hk (pop.length + 2) pop 0
    (pop.length - 1) 0 pop2 rfl hrect (Nat.zero_le _) (by omega) (by omega)
    (fun x y hx _ _ => absurd hx (Nat.not_lt_zero x))
    (fun x y _ hy hyN => absurd hy (by omega))
    (fun hs0 x y hx _ _ => absurd hx (by omega))
    hcall
  exact G

/-- Witness for C3: on the eight-row sample population with divide index 3,
the quickselect terminates and row 2 scores at most row 4. -/
theorem divide_population_spec_witness :
    (∀ r ∈ wpop, r.length = 2) ∧ 3 < wpop.length ∧
    scoreAt [[0, 7], [1, 1], [2, 3], [3, 5], [9, 4], [5, 0], [7, 6], [4, 2]] 2 ≤
      scoreAt [[0, 7], [1, 1], [2, 3], [3, 5], [9, 4], [5, 0], [7, 6], [4, 2]] 4 :=
  ⟨by decide, by decide,
    divide_population_spec wpop 3 2 (by decide) (by decide)
      [[0, 7], [1, 1], [2, 3], [3, 5], [9, 4], [5, 0], [7, 6], [4, 2]] (by decide)
      2 4 (by decide) (by decide) (by decide)⟩

/-- C10: `divide_population` only swaps whole rows, so when it terminates the
multiset of rows of the result equals the multiset of rows of the input: no
member is lost or duplicated, and no score is separated from its
permutation. -/
theorem divide_population_rows_perm (pop : Pop) (k L : Nat)
    (hrect : ∀ r ∈ pop, r.length = L)
    (pop2 : Pop) (hcall : divide_population pop k = some pop2) :
    pop2.Perm pop := by
  by_cases hlen : pop.length = 0
  · have hpop : pop = [] := List.length_eq_zero.mp hlen
    subst hpop
    have h0 : divide_population ([] : Pop) k = some [] := rfl
    rw [h0] at hcall
    obtain rfl := Option.some.inj hcall
    exact List.Perm.refl _
  · exact divideLoop_rows_perm k L (pop.length + 2) pop 0 (pop.length - 1) 0 pop2
      hrect (by omega) hcall

/-- Witness for C10: on the eight-row sample population with divide index 3,
the result is a permutation of the input rows. -/
theorem divide_population_rows_perm_witness :
    (∀ r ∈ wpop, r.length = 2) ∧
    List.Perm [[0, 7], [1, 1], [2, 3], [3, 5], [9, 4], [5, 0], [7, 6], [4, 2]] wpop :=
  ⟨by decide,
    divide_population_rows_perm wpop 3 2 (by decide)
      [[0, 7], [1, 1], [2, 3], [3, 5], [9, 4], [5, 0], [7, 6], [4, 2]] (by decide)⟩

end Gridea
